import Mathlib

/-!
Verification of the fair priority queue (`pq-fair`) and its synchronized
wrapper (`pq-sync`) from the `pq-async-rs` repository.

The Rust data structures are shallowly embedded: `HashMap<E, VecDeque<T>>`
becomes an association list `List (E × List T)`, `VecDeque` becomes `List`
(push_back = append at the tail, pop_front = head), `HashSet<E>` becomes a
`List E` used as a set.  All operations are translated function-by-function
from `src/crates/pq-fair/src/lib.rs` and `src/crates/pq-sync/src/lib.rs`.
-/

namespace PqAsync

/-- The error enum of `pq-core` (`src/crates/pq-core/src/lib.rs`). -/
inductive PQError where
  | BadPriority : Nat → PQError
  | LockError : PQError
  | Closed : PQError
  | Timeout : PQError
  | NotImplemented : PQError
  deriving DecidableEq, Repr

/-! ### Association-list model of `HashMap<E, VecDeque<T>>` -/

/-- `HashMap::get`: the value stored at key `e`, if any. -/
def lookupE [DecidableEq E] (e : E) : List (E × List T) → Option (List T)
  | [] => none
  | (k, v) :: rest => if k = e then some v else lookupE e rest

/-- `by_entities.entry(e).or_default().push_back(t)`: append `t` at the tail of
the deque stored at key `e`, creating the entry if absent. -/
def mapPush [DecidableEq E] (e : E) (t : T) : List (E × List T) → List (E × List T)
  | [] => [(e, [t])]
  | (k, v) :: rest => if k = e then (k, v ++ [t]) :: rest else (k, v) :: mapPush e t rest

/-- In-place mutation of the deque stored at key `e` (the effect of
`get_mut(&e)` followed by `pop_front()`): replace the first entry for `e`. -/
def mapSet [DecidableEq E] (e : E) (l : List T) : List (E × List T) → List (E × List T)
  | [] => []
  | (k, v) :: rest => if k = e then (k, l) :: rest else (k, v) :: mapSet e l rest

/-- `HashMap::remove`: drop the entry (entries) stored at key `e`. -/
def mapRemove [DecidableEq E] (e : E) (m : List (E × List T)) : List (E × List T) :=
  m.filter (fun kv => kv.1 ≠ e)

/-- `HashSet::insert`: returns whether the element was newly inserted,
together with the updated set. -/
def setInsert [DecidableEq E] (e : E) (s : List E) : Bool × List E :=
  if e ∈ s then (false, s) else (true, e :: s)

/-- `HashSet::remove`. -/
def setRemove [DecidableEq E] (e : E) (s : List E) : List E :=
  s.filter (fun x => x ≠ e)

/-- Mutate the element at index `i` of a list (`&mut self.queues[prio]`). -/
def modifyIdx (f : α → α) : Nat → List α → List α
  | _, [] => []
  | 0, x :: xs => f x :: xs
  | n + 1, x :: xs => x :: modifyIdx f n xs

/-! ### The fair priority queue (`src/crates/pq-fair/src/lib.rs`) -/

/-- One priority level: `struct PriorityLevel<E, T>` with
`by_entities: HashMap<E, VecDeque<T>>`, `rr: VecDeque<E>`,
`actives: HashSet<E>`. -/
structure PriorityLevel (E T : Type) where
  by_entities : List (E × List T)
  rr : List E
  actives : List E
  deriving DecidableEq, Repr

/-- `struct PriorityQueue<E, T> { queues: Vec<PriorityLevel<E, T>> }`. -/
structure PriorityQueue (E T : Type) where
  queues : List (PriorityLevel E T)
  deriving DecidableEq, Repr

/-- `PriorityLevel::new()`. -/
def PriorityLevel.new (E T : Type) : PriorityLevel E T :=
  { by_entities := [], rr := [], actives := [] }

/-- `PriorityQueue::new(n_prio)`: `n_prio` fresh levels. -/
def PriorityQueue.new (E T : Type) (n_prio : Nat) : PriorityQueue E T :=
  { queues := List.replicate n_prio (PriorityLevel.new E T) }

/-- The body of `PriorityQueue::enqueue` acting on the selected level:
insert the entity into `actives` (appending it to `rr` when new) and push the
item at the tail of its deque. -/
def levelEnqueue [DecidableEq E] (lvl : PriorityLevel E T) (e : E) (t : T) :
    PriorityLevel E T :=
  let ins := setInsert e lvl.actives
  { by_entities := mapPush e t lvl.by_entities
    rr := if ins.1 then lvl.rr ++ [e] else lvl.rr
    actives := ins.2 }

/-- `PriorityQueue::enqueue`.  Returns the `Result` together with the
post-state (the Rust method mutates `&mut self`); on `BadPriority` the state
is returned unchanged. -/
def enqueue [DecidableEq E] (q : PriorityQueue E T) (prio : Nat) (e : E) (t : T) :
    Except PQError Unit × PriorityQueue E T :=
  if prio < q.queues.length then
    (Except.ok (), ⟨modifyIdx (fun lvl => levelEnqueue lvl e t) prio q.queues⟩)
  else
    (Except.error (PQError.BadPriority prio), q)

/-- One iteration of the `for level in self.queues.iter_mut()` loop of
`PriorityQueue::try_dequeue`, acting on a single level.  Returns the served
entity and item when the level yields one, together with the (possibly
mutated) level.  The `none` branches mirror the source exactly: `rr.pop_front`
has already mutated `rr` even when the entity has no usable deque. -/
def levelTryDequeue [DecidableEq E] (lvl : PriorityLevel E T) :
    Option (E × T) × PriorityLevel E T :=
  match lvl.rr with
  | [] => (none, lvl)
  | e :: rr' =>
    match lookupE e lvl.by_entities with
    | none => (none, { lvl with rr := rr' })
    | some items =>
      match items with
      | [] => (none, { lvl with rr := rr' })
      | t :: items' =>
        if items'.isEmpty then
          (some (e, t),
            { by_entities := mapRemove e lvl.by_entities
              rr := rr'
              actives := setRemove e lvl.actives })
        else
          (some (e, t),
            { by_entities := mapSet e items' lvl.by_entities
              rr := rr' ++ [e]
              actives := lvl.actives })

/-- The loop of `PriorityQueue::try_dequeue` over the list of levels.  The
result is annotated (ghost information) with the index of the level and the
entity that produced the item; the control flow is exactly the source's. -/
def tryDequeueLevels [DecidableEq E] :
    List (PriorityLevel E T) → Option (Nat × E × T) × List (PriorityLevel E T)
  | [] => (none, [])
  | lvl :: rest =>
    match levelTryDequeue lvl with
    | (some (e, t), lvl') => (some (0, e, t), lvl' :: rest)
    | (none, lvl') =>
      let r := tryDequeueLevels rest
      (r.1.map (fun a => (a.1 + 1, a.2.1, a.2.2)), lvl' :: r.2)

/-- `PriorityQueue::try_dequeue`, annotated with the source level and entity
of the returned item. -/
def tryDequeueA [DecidableEq E] (q : PriorityQueue E T) :
    Option (Nat × E × T) × PriorityQueue E T :=
  let r := tryDequeueLevels q.queues
  (r.1, ⟨r.2⟩)

/-- `PriorityQueue::try_dequeue`: the annotation erased. -/
def tryDequeue [DecidableEq E] (q : PriorityQueue E T) :
    Option T × PriorityQueue E T :=
  let r := tryDequeueA q
  (r.1.map (fun a => a.2.2), r.2)

/-- Modelled from the spec: `PriorityQueue::is_empty` is called by the sync
wrapper (`s.pq.is_empty()` in `src/crates/pq-sync/src/lib.rs`) but its
definition is absent from `src/crates/pq-fair/src/lib.rs`; the spec states
"`is_empty()` → boolean; true iff all levels have empty `rr`". -/
def isEmpty (q : PriorityQueue E T) : Bool :=
  q.queues.all (fun lvl => lvl.rr.isEmpty)

/-! ### Item counting, used for termination of the drain loop -/

/-- Number of items stored at one level (sum of the deque lengths). -/
def levelItems (lvl : PriorityLevel E T) : Nat :=
  (lvl.by_entities.map (fun kv => kv.2.length)).sum

/-- Total number of items stored in the queue. -/
def totalItems (q : PriorityQueue E T) : Nat :=
  (q.queues.map levelItems).sum

theorem sum_map_filter_le (m : List (E × List T)) (p : E × List T → Bool) :
    ((m.filter p).map (fun kv => kv.2.length)).sum
      ≤ (m.map (fun kv => kv.2.length)).sum := by
  induction m with
  | nil => simp
  | cons kv rest ih =>
    by_cases h : p kv
    · simp [List.filter_cons, h]
      omega
    · simp [List.filter_cons, h]
      omega

theorem sum_map_mapRemove_lt [DecidableEq E] (e : E)
    (m : List (E × List T)) (v : List T) (hv : lookupE e m = some v)
    (hne : v ≠ []) :
    ((mapRemove e m).map (fun kv => kv.2.length)).sum
      < (m.map (fun kv => kv.2.length)).sum := by
  induction m with
  | nil => simp [lookupE] at hv
  | cons kv rest ih =>
    obtain ⟨k, w⟩ := kv
    by_cases hk : k = e
    · subst hk
      simp [lookupE] at hv
      have hwl : 0 < w.length := by
        cases w with
        | nil => exact absurd hv.symm hne
        | cons a l => simp
      have hfil := sum_map_filter_le (T := T) rest (fun kv => decide (kv.1 ≠ k))
      simp [mapRemove, List.filter_cons]
      simp [mapRemove] at hfil
      omega
    · simp [lookupE, hk] at hv
      have := ih hv
      simp [mapRemove, List.filter_cons, hk]
      simp [mapRemove] at this
      omega

theorem sum_map_mapSet_lt [DecidableEq E] (e : E)
    (m : List (E × List T)) (t : T) (its : List T)
    (hv : lookupE e m = some (t :: its)) :
    ((mapSet e its m).map (fun kv => kv.2.length)).sum
      < (m.map (fun kv => kv.2.length)).sum := by
  induction m with
  | nil => simp [lookupE] at hv
  | cons kv rest ih =>
    obtain ⟨k, w⟩ := kv
    by_cases hk : k = e
    · subst hk
      simp [lookupE] at hv
      subst hv
      simp [mapSet]
    · simp [lookupE, hk] at hv
      have := ih hv
      simp [mapSet, hk]
      omega

/-- A successful `levelTryDequeue` strictly decreases the number of items
stored at the level. -/
theorem levelTryDequeue_some_items_lt [DecidableEq E]
    (lvl : PriorityLevel E T) (e : E) (t : T) (lvl' : PriorityLevel E T)
    (h : levelTryDequeue lvl = (some (e, t), lvl')) :
    levelItems lvl' < levelItems lvl := by
  obtain ⟨be, rr, ac⟩ := lvl
  cases rr with
  | nil => simp [levelTryDequeue] at h
  | cons e0 rr' =>
    simp only [levelTryDequeue] at h
    cases hlk : lookupE e0 be with
    | none => rw [hlk] at h; simp at h
    | some items =>
      rw [hlk] at h
      cases items with
      | nil => simp at h
      | cons t0 items' =>
        cases hi : items'.isEmpty with
        | true =>
          simp [hi] at h
          obtain ⟨⟨he, ht⟩, hl⟩ := h
          subst he ht
          rw [← hl]
          simp only [levelItems]
          have hi' : items' = [] := List.isEmpty_iff.mp hi
          subst hi'
          exact sum_map_mapRemove_lt e0 be [t0] hlk (by simp)
        | false =>
          simp [hi] at h
          obtain ⟨⟨he, ht⟩, hl⟩ := h
          subst he ht
          rw [← hl]
          simp only [levelItems]
          exact sum_map_mapSet_lt e0 be t0 items' hlk

/-- A failing `levelTryDequeue` leaves `by_entities` (hence the item count)
unchanged: only `rr` may have been popped. -/
theorem levelTryDequeue_none_by_entities [DecidableEq E]
    (lvl : PriorityLevel E T) (lvl' : PriorityLevel E T)
    (h : levelTryDequeue lvl = (none, lvl')) :
    lvl'.by_entities = lvl.by_entities := by
  obtain ⟨be, rr, ac⟩ := lvl
  cases rr with
  | nil => simp [levelTryDequeue] at h; rw [← h]
  | cons e0 rr' =>
    simp only [levelTryDequeue] at h
    cases hlk : lookupE e0 be with
    | none => rw [hlk] at h; simp at h; rw [← h]
    | some items =>
      rw [hlk] at h
      cases items with
      | nil => simp at h; rw [← h]
      | cons t0 items' =>
        cases hi : items'.isEmpty with
        | true => simp [hi] at h
        | false => simp [hi] at h

/-- A successful `tryDequeueLevels` strictly decreases the total number of
stored items. -/
theorem tryDequeueLevels_some_items_lt [DecidableEq E]
    (ls : List (PriorityLevel E T)) (a : Nat × E × T) (ls' : List (PriorityLevel E T))
    (h : tryDequeueLevels ls = (some a, ls')) :
    (ls'.map levelItems).sum < (ls.map levelItems).sum := by
  induction ls generalizing a ls' with
  | nil => simp [tryDequeueLevels] at h
  | cons lvl rest ih =>
    unfold tryDequeueLevels at h
    cases hl : levelTryDequeue lvl with
    | mk r lvl1 =>
      cases r with
      | some et =>
        obtain ⟨e, t⟩ := et
        rw [hl] at h
        simp at h
        obtain ⟨_, hl'⟩ := h
        rw [← hl']
        have := levelTryDequeue_some_items_lt lvl e t lvl1 hl
        simp
        omega
      | none =>
        rw [hl] at h
        simp at h
        obtain ⟨ha, hl'⟩ := h
        cases hrest : tryDequeueLevels rest with
        | mk rr rest' =>
          rw [hrest] at ha hl'
          cases rr with
          | none => simp at ha
          | some b =>
            have hlvl1 : levelItems lvl1 = levelItems lvl := by
              have := levelTryDequeue_none_by_entities lvl lvl1 hl
              simp [levelItems, this]
            have := ih b rest' hrest
            rw [← hl']
            simp [hlvl1]
            omega

/-- A successful `tryDequeueA` strictly decreases the total item count. -/
theorem tryDequeueA_some_totalItems_lt [DecidableEq E]
    (q : PriorityQueue E T) (a : Nat × E × T) (q' : PriorityQueue E T)
    (h : tryDequeueA q = (some a, q')) :
    totalItems q' < totalItems q := by
  unfold tryDequeueA at h
  match hl : tryDequeueLevels q.queues with
  | (none, ls') => rw [hl] at h; simp at h
  | (some b, ls') =>
    rw [hl] at h
    simp at h
    obtain ⟨hb, hq⟩ := h
    have := tryDequeueLevels_some_items_lt q.queues b ls' hl
    rw [← hq]
    simpa [totalItems] using this

/-- The loop body of `SyncPriorityQueue::shutdown_immediate`
(`while st.pq.try_dequeue().is_some() {}`) together with the sequence of
annotated items it extracts: repeatedly call `try_dequeue` until it returns
`None`, keeping the final state (which includes the mutation performed by the
final, failing call). -/
def drainA [DecidableEq E] (q : PriorityQueue E T) :
    List (Nat × E × T) × PriorityQueue E T :=
  match h : tryDequeueA q with
  | (none, q') => ([], q')
  | (some a, q') =>
    let r := drainA q'
    (a :: r.1, r.2)
termination_by totalItems q
decreasing_by
  exact tryDequeueA_some_totalItems_lt q a q' h

/-- The state left by the drain loop of `shutdown_immediate`. -/
def drain [DecidableEq E] (q : PriorityQueue E T) : PriorityQueue E T :=
  (drainA q).2

/-- The annotated sequence of items obtained by repeatedly calling
`try_dequeue` until exhaustion: each element records
(level index, entity, item). -/
def drainSeqA [DecidableEq E] (q : PriorityQueue E T) : List (Nat × E × T) :=
  (drainA q).1

/-! ### Lemmas about the association-list and set operations -/

theorem lookupE_mem [DecidableEq E] {e : E} {m : List (E × List T)} {v : List T}
    (h : lookupE e m = some v) : (e, v) ∈ m := by
  induction m with
  | nil => simp [lookupE] at h
  | cons kv rest ih =>
    obtain ⟨k, w⟩ := kv
    by_cases hk : k = e
    · subst hk
      simp [lookupE] at h
      subst h
      simp
    · simp [lookupE, hk] at h
      exact List.mem_cons_of_mem _ (ih h)

theorem lookupE_eq_none [DecidableEq E] {e : E} {m : List (E × List T)} :
    lookupE e m = none ↔ e ∉ m.map Prod.fst := by
  induction m with
  | nil => simp [lookupE]
  | cons kv rest ih =>
    obtain ⟨k, w⟩ := kv
    by_cases hk : k = e
    · subst hk
      simp [lookupE]
    · simp [lookupE, hk, ih, Ne.symm hk]

theorem lookupE_mapPush_self [DecidableEq E] (e : E) (t : T)
    (m : List (E × List T)) :
    lookupE e (mapPush e t m) = some ((lookupE e m).getD [] ++ [t]) := by
  induction m with
  | nil => simp [mapPush, lookupE]
  | cons kv rest ih =>
    obtain ⟨k, w⟩ := kv
    by_cases hk : k = e
    · subst hk
      simp [mapPush, lookupE]
    · simp [mapPush, lookupE, hk, ih]

theorem lookupE_mapPush_ne [DecidableEq E] {x e : E} (hx : x ≠ e) (t : T)
    (m : List (E × List T)) :
    lookupE x (mapPush e t m) = lookupE x m := by
  induction m with
  | nil => simp [mapPush, lookupE, Ne.symm hx]
  | cons kv rest ih =>
    obtain ⟨k, w⟩ := kv
    by_cases hk : k = e
    · subst hk
      simp [mapPush, lookupE, hx, Ne.symm hx]
    · by_cases hkx : k = x
      · subst hkx
        simp [mapPush, hk, lookupE]
      · simp [mapPush, hk, lookupE, hkx, ih]

theorem lookupE_mapSet_self [DecidableEq E] {e : E} {m : List (E × List T)}
    {v : List T} (h : lookupE e m = some v) (l : List T) :
    lookupE e (mapSet e l m) = some l := by
  induction m with
  | nil => simp [lookupE] at h
  | cons kv rest ih =>
    obtain ⟨k, w⟩ := kv
    by_cases hk : k = e
    · subst hk
      simp [mapSet, lookupE]
    · simp [lookupE, hk] at h
      simp [mapSet, lookupE, hk, ih h]

theorem lookupE_mapSet_ne [DecidableEq E] {x e : E} (hx : x ≠ e) (l : List T)
    (m : List (E × List T)) :
    lookupE x (mapSet e l m) = lookupE x m := by
  induction m with
  | nil => simp [mapSet]
  | cons kv rest ih =>
    obtain ⟨k, w⟩ := kv
    by_cases hk : k = e
    · subst hk
      simp [mapSet, lookupE, Ne.symm hx, ih]
    · by_cases hkx : k = x
      · subst hkx
        simp [mapSet, hk, lookupE]
      · simp [mapSet, hk, lookupE, hkx, ih]

theorem lookupE_mapRemove_self [DecidableEq E] (e : E) (m : List (E × List T)) :
    lookupE e (mapRemove e m) = none := by
  rw [lookupE_eq_none]
  intro hmem
  simp [mapRemove] at hmem

theorem lookupE_mapRemove_ne [DecidableEq E] {x e : E} (hx : x ≠ e)
    (m : List (E × List T)) :
    lookupE x (mapRemove e m) = lookupE x m := by
  induction m with
  | nil => simp [mapRemove]
  | cons kv rest ih =>
    obtain ⟨k, w⟩ := kv
    by_cases hk : k = e
    · subst hk
      simp [mapRemove, List.filter_cons, lookupE, Ne.symm hx]
      simpa [mapRemove] using ih
    · by_cases hkx : k = x
      · subst hkx
        simp [mapRemove, List.filter_cons, hk, lookupE]
      · simp [mapRemove, List.filter_cons, hk, lookupE, hkx]
        simpa [mapRemove] using ih

theorem mem_mapPush [DecidableEq E] {kv : E × List T} {e : E} {t : T}
    {m : List (E × List T)} (h : kv ∈ mapPush e t m) :
    kv ∈ m ∨ (kv.1 = e ∧ kv.2 ≠ []) := by
  induction m with
  | nil =>
    simp [mapPush] at h
    subst h
    simp
  | cons kv0 rest ih =>
    obtain ⟨k, w⟩ := kv0
    by_cases hk : k = e
    · subst hk
      simp [mapPush] at h
      rcases h with h | h
      · right
        subst h
        simp
      · exact Or.inl (List.mem_cons_of_mem _ h)
    · simp [mapPush, hk] at h
      rcases h with h | h
      · subst h
        simp
      · rcases ih h with h' | h'
        · exact Or.inl (List.mem_cons_of_mem _ h')
        · exact Or.inr h'

theorem mem_mapSet [DecidableEq E] {kv : E × List T} {e : E} {l : List T}
    {m : List (E × List T)} (h : kv ∈ mapSet e l m) :
    kv ∈ m ∨ (kv.1 = e ∧ kv.2 = l) := by
  induction m with
  | nil => simp [mapSet] at h
  | cons kv0 rest ih =>
    obtain ⟨k, w⟩ := kv0
    by_cases hk : k = e
    · subst hk
      simp [mapSet] at h
      rcases h with h | h
      · right
        subst h
        simp
      · exact Or.inl (List.mem_cons_of_mem _ h)
    · simp [mapSet, hk] at h
      rcases h with h | h
      · subst h
        simp
      · rcases ih h with h' | h'
        · exact Or.inl (List.mem_cons_of_mem _ h')
        · exact Or.inr h'

theorem keys_mapSet [DecidableEq E] (e : E) (l : List T)
    (m : List (E × List T)) :
    (mapSet e l m).map Prod.fst = m.map Prod.fst := by
  induction m with
  | nil => simp [mapSet]
  | cons kv rest ih =>
    obtain ⟨k, w⟩ := kv
    by_cases hk : k = e
    · subst hk
      simp [mapSet]
    · simp [mapSet, hk, ih]

theorem keys_mapRemove [DecidableEq E] (e : E) (m : List (E × List T)) :
    (mapRemove e m).map Prod.fst = (m.map Prod.fst).filter (fun x => x ≠ e) := by
  induction m with
  | nil => simp [mapRemove]
  | cons kv rest ih =>
    obtain ⟨k, w⟩ := kv
    by_cases hk : k = e
    · subst hk
      simp [mapRemove, List.filter_cons] at ih ⊢
      exact ih
    · simp [mapRemove, List.filter_cons, hk] at ih ⊢
      exact ih

theorem keys_mapPush_none [DecidableEq E] {e : E} (t : T)
    {m : List (E × List T)} (h : lookupE e m = none) :
    (mapPush e t m).map Prod.fst = m.map Prod.fst ++ [e] := by
  induction m with
  | nil => simp [mapPush]
  | cons kv rest ih =>
    obtain ⟨k, w⟩ := kv
    by_cases hk : k = e
    · subst hk
      simp [lookupE] at h
    · simp [lookupE, hk] at h
      simp [mapPush, hk, ih h]

theorem keys_mapPush_some [DecidableEq E] {e : E} (t : T)
    {m : List (E × List T)} {v : List T} (h : lookupE e m = some v) :
    (mapPush e t m).map Prod.fst = m.map Prod.fst := by
  induction m with
  | nil => simp [lookupE] at h
  | cons kv rest ih =>
    obtain ⟨k, w⟩ := kv
    by_cases hk : k = e
    · subst hk
      simp [mapPush]
    · simp [lookupE, hk] at h
      simp [mapPush, hk, ih h]

/-! ### The per-level invariant -/

/-- The invariant of one priority level (spec §3, invariants 1 and 2):
`actives` and `rr` hold the same entities, every active entity owns a
non-empty deque, `by_entities` holds no empty deque and every stored entity
is active, `rr` has no duplicates, and the (modelled) map has no duplicate
keys. -/
def LevelInv [DecidableEq E] (lvl : PriorityLevel E T) : Prop :=
  (∀ e ∈ lvl.actives, e ∈ lvl.rr) ∧
  (∀ e ∈ lvl.rr, e ∈ lvl.actives) ∧
  (∀ e ∈ lvl.actives, (lookupE e lvl.by_entities).getD [] ≠ []) ∧
  (∀ kv ∈ lvl.by_entities, kv.2 ≠ [] ∧ kv.1 ∈ lvl.actives) ∧
  lvl.rr.Nodup ∧ (lvl.by_entities.map Prod.fst).Nodup

instance [DecidableEq E] [DecidableEq T] (lvl : PriorityLevel E T) :
    Decidable (LevelInv lvl) := by
  unfold LevelInv
  infer_instance

/-- The whole-queue invariant: every level satisfies `LevelInv`. -/
def Inv [DecidableEq E] (q : PriorityQueue E T) : Prop :=
  ∀ lvl ∈ q.queues, LevelInv lvl

instance [DecidableEq E] [DecidableEq T] (q : PriorityQueue E T) :
    Decidable (Inv q) := by
  unfold Inv
  infer_instance

/-- An active entity's deque, under the invariant: a `some`, non-empty. -/
theorem LevelInv.lookup_active [DecidableEq E] {lvl : PriorityLevel E T}
    (h : LevelInv lvl) {e : E} (he : e ∈ lvl.actives) :
    ∃ t its, lookupE e lvl.by_entities = some (t :: its) := by
  have h3 := h.2.2.1 e he
  cases hlk : lookupE e lvl.by_entities with
  | none => rw [hlk] at h3; simp at h3
  | some v =>
    rw [hlk] at h3
    simp at h3
    cases v with
    | nil => simp at h3
    | cons t its => exact ⟨t, its, rfl⟩

/-- Under the invariant, `levelTryDequeue` on a level with an empty roster
does nothing, and on a non-empty roster serves the head entity `e`: it pops
the head of `e`'s deque, rotates `e` to the tail of `rr` when the deque is
still non-empty and evicts `e` otherwise. -/
theorem levelTryDequeue_spec [DecidableEq E] (lvl : PriorityLevel E T)
    (hinv : LevelInv lvl) :
    (lvl.rr = [] → levelTryDequeue lvl = (none, lvl)) ∧
    (∀ e rr', lvl.rr = e :: rr' →
      ∃ t its, lookupE e lvl.by_entities = some (t :: its) ∧
        levelTryDequeue lvl =
          (some (e, t),
            if its.isEmpty then
              ⟨mapRemove e lvl.by_entities, rr', setRemove e lvl.actives⟩
            else
              ⟨mapSet e its lvl.by_entities, rr' ++ [e], lvl.actives⟩)) := by
  constructor
  · intro hrr
    obtain ⟨be, rr, ac⟩ := lvl
    simp at hrr
    subst hrr
    simp [levelTryDequeue]
  · intro e rr' hrr
    have he : e ∈ lvl.actives := hinv.2.1 e (by rw [hrr]; simp)
    obtain ⟨t, its, hlk⟩ := hinv.lookup_active he
    refine ⟨t, its, hlk, ?_⟩
    obtain ⟨be, rr, ac⟩ := lvl
    simp at hrr
    subst hrr
    simp at hlk
    simp only [levelTryDequeue]
    rw [hlk]
    cases hi : its.isEmpty with
    | true => simp [hi]
    | false => simp [hi]

/-- Under the invariant, a failing `levelTryDequeue` means the roster was
empty and the level is unchanged. -/
theorem levelTryDequeue_none_of_inv [DecidableEq E] {lvl lvl' : PriorityLevel E T}
    (hinv : LevelInv lvl) (h : levelTryDequeue lvl = (none, lvl')) :
    lvl.rr = [] ∧ lvl' = lvl := by
  cases hrr : lvl.rr with
  | nil =>
    have := (levelTryDequeue_spec lvl hinv).1 hrr
    rw [this] at h
    simp at h
    exact ⟨rfl, h.symm⟩
  | cons e rr' =>
    obtain ⟨t, its, _, hspec⟩ := (levelTryDequeue_spec lvl hinv).2 e rr' hrr
    rw [hspec] at h
    simp at h

/-- `levelEnqueue` preserves the level invariant. -/
theorem levelEnqueue_inv [DecidableEq E] {lvl : PriorityLevel E T}
    (hinv : LevelInv lvl) (e : E) (t : T) : LevelInv (levelEnqueue lvl e t) := by
  obtain ⟨h1, h2, h3, h4, h5, h6⟩ := hinv
  by_cases hmem : e ∈ lvl.actives
  · -- the entity is already active: `rr` and `actives` unchanged
    refine ⟨?_, ?_, ?_, ?_, ?_, ?_⟩
    · intro x hx
      simp [levelEnqueue, setInsert, hmem] at hx ⊢
      exact h1 x hx
    · intro x hx
      simp [levelEnqueue, setInsert, hmem] at hx ⊢
      exact h2 x hx
    · intro x hx
      simp [levelEnqueue, setInsert, hmem] at hx ⊢
      by_cases hxe : x = e
      · subst hxe
        rw [lookupE_mapPush_self]
        simp
      · rw [lookupE_mapPush_ne hxe]
        exact h3 x hx
    · intro kv hkv
      simp only [levelEnqueue, setInsert, hmem] at hkv ⊢
      rcases mem_mapPush hkv with h' | h'
      · have := h4 kv h'
        simp [hmem]
        exact ⟨this.1, this.2⟩
      · simp [hmem, h'.1, h'.2]
    · simpa [levelEnqueue, setInsert, hmem] using h5
    · simp only [levelEnqueue, setInsert, hmem, if_pos]
      obtain ⟨tv, its, hlk⟩ := LevelInv.lookup_active ⟨h1, h2, h3, h4, h5, h6⟩ hmem
      rw [keys_mapPush_some t hlk]
      exact h6
  · -- new entity: appended to `rr` and inserted into `actives`
    have hlkn : lookupE e lvl.by_entities = none := by
      cases hlk : lookupE e lvl.by_entities with
      | none => rfl
      | some v =>
        have := (h4 (e, v) (lookupE_mem hlk)).2
        exact absurd this hmem
    have hnrr : e ∉ lvl.rr := fun hrr => hmem (h2 e hrr)
    refine ⟨?_, ?_, ?_, ?_, ?_, ?_⟩
    · intro x hx
      simp [levelEnqueue, setInsert, hmem] at hx ⊢
      rcases hx with hx | hx
      · subst hx; right; rfl
      · exact Or.inl (h1 x hx)
    · intro x hx
      simp [levelEnqueue, setInsert, hmem] at hx ⊢
      rcases hx with hx | hx
      · exact Or.inr (h2 x hx)
      · subst hx; left; rfl
    · intro x hx
      simp [levelEnqueue, setInsert, hmem] at hx ⊢
      rcases hx with hx | hx
      · subst hx
        rw [lookupE_mapPush_self]
        simp
      · by_cases hxe : x = e
        · subst hxe
          rw [lookupE_mapPush_self]
          simp
        · rw [lookupE_mapPush_ne hxe]
          exact h3 x hx
    · intro kv hkv
      simp only [levelEnqueue, setInsert, hmem] at hkv ⊢
      rcases mem_mapPush hkv with h' | h'
      · have := h4 kv h'
        simp [hmem]
        exact ⟨this.1, Or.inr this.2⟩
      · simp [hmem, h'.2]
        exact Or.inl h'.1
    · have hnd : (lvl.rr ++ [e]).Nodup := by
        rw [List.nodup_append]
        refine ⟨h5, by simp, ?_⟩
        intro a ha hb
        simp at hb
        subst hb
        exact hnrr ha
      simpa [levelEnqueue, setInsert, hmem] using hnd
    · have hkey : e ∉ lvl.by_entities.map Prod.fst := lookupE_eq_none.mp hlkn
      have hnd : (lvl.by_entities.map Prod.fst ++ [e]).Nodup := by
        rw [List.nodup_append]
        refine ⟨h6, by simp, ?_⟩
        intro a ha hb
        simp at hb
        subst hb
        exact hkey ha
      simp only [levelEnqueue, setInsert, hmem, if_pos]
      rw [keys_mapPush_none t hlkn]
      exact hnd

/-- `levelTryDequeue` preserves the level invariant. -/
theorem levelTryDequeue_inv [DecidableEq E] {lvl lvl' : PriorityLevel E T}
    (hinv : LevelInv lvl) {r : Option (E × T)}
    (h : levelTryDequeue lvl = (r, lvl')) : LevelInv lvl' := by
  cases r with
  | none =>
    have := levelTryDequeue_none_of_inv hinv h
    rw [this.2]
    exact hinv
  | some et =>
    obtain ⟨e, t⟩ := et
    cases hrr : lvl.rr with
    | nil =>
      rw [(levelTryDequeue_spec lvl hinv).1 hrr] at h
      simp at h
    | cons e0 rr' =>
      obtain ⟨t0, its, hlk, hspec⟩ := (levelTryDequeue_spec lvl hinv).2 e0 rr' hrr
      rw [hspec] at h
      simp at h
      obtain ⟨⟨he, ht⟩, hl⟩ := h
      subst he ht
      rw [← hl]
      obtain ⟨h1, h2, h3, h4, h5, h6⟩ := hinv
      have hnd' : rr'.Nodup := by
        rw [hrr] at h5
        exact h5.of_cons
      have hnotin : e0 ∉ rr' := by
        rw [hrr] at h5
        exact (List.nodup_cons.mp h5).1
      cases hi : its.isEmpty with
      | true =>
        -- eviction branch
        rw [if_pos rfl]
        refine ⟨?_, ?_, ?_, ?_, ?_, ?_⟩
        · intro x hx
          simp [setRemove] at hx
          have := h1 x hx.1
          rw [hrr] at this
          simp at this
          rcases this with h' | h'
          · exact absurd h' hx.2
          · exact h'
        · intro x hx
          simp [setRemove]
          refine ⟨h2 x (by rw [hrr]; simp [hx]), ?_⟩
          intro hxe
          subst hxe
          exact hnotin hx
        · intro x hx
          simp [setRemove] at hx
          rw [lookupE_mapRemove_ne hx.2]
          exact h3 x hx.1
        · intro kv hkv
          simp only [mapRemove, List.mem_filter] at hkv
          obtain ⟨hkv, hne⟩ := hkv
          simp at hne
          have := h4 kv hkv
          simp [setRemove]
          exact ⟨this.1, this.2, hne⟩
        · exact hnd'
        · rw [keys_mapRemove]
          exact h6.filter _
      | false =>
        -- rotation branch
        rw [if_neg (by simp)]
        have hea : e0 ∈ lvl.actives := h2 e0 (by rw [hrr]; simp)
        refine ⟨?_, ?_, ?_, ?_, ?_, ?_⟩
        · intro x hx
          have := h1 x hx
          rw [hrr] at this
          simp at this ⊢
          tauto
        · intro x hx
          simp at hx
          rcases hx with hx | hx
          · exact h2 x (by rw [hrr]; simp [hx])
          · subst hx
            exact hea
        · intro x hx
          by_cases hxe : x = e0
          · subst hxe
            rw [lookupE_mapSet_self hlk]
            simp
            intro hc
            rw [← List.isEmpty_iff] at hc
            rw [hc] at hi
            cases hi
          · rw [lookupE_mapSet_ne hxe]
            exact h3 x hx
        · intro kv hkv
          rcases mem_mapSet hkv with h' | h'
          · exact h4 kv h'
          · refine ⟨?_, ?_⟩
            · rw [h'.2]
              intro hc
              rw [← List.isEmpty_iff] at hc
              rw [hc] at hi
              cases hi
            · rw [h'.1]
              exact hea
        · rw [List.nodup_append]
          refine ⟨hnd', by simp, ?_⟩
          intro a ha hb
          simp at hb
          subst hb
          exact hnotin ha
        · rw [keys_mapSet]
          exact h6

/-! ### Operation traces on the fair queue -/

/-- A single client operation on the fair queue. -/
inductive QOp (E T : Type) where
  | enq (prio : Nat) (e : E) (t : T)
  | deq
  deriving DecidableEq, Repr

/-- The state transformation of one operation (results discarded). -/
def qStep [DecidableEq E] (q : PriorityQueue E T) : QOp E T → PriorityQueue E T
  | .enq p e t => (enqueue q p e t).2
  | .deq => (tryDequeueA q).2

/-- Run a sequence of operations from a state. -/
def runPQ [DecidableEq E] (q : PriorityQueue E T) (ops : List (QOp E T)) :
    PriorityQueue E T :=
  ops.foldl qStep q

theorem mem_modifyIdx {f : α → α} {n : Nat} {ls : List α} {x : α}
    (h : x ∈ modifyIdx f n ls) : x ∈ ls ∨ ∃ y ∈ ls, x = f y := by
  induction ls generalizing n with
  | nil => simp [modifyIdx] at h
  | cons a rest ih =>
    cases n with
    | zero =>
      simp [modifyIdx] at h
      rcases h with h | h
      · exact Or.inr ⟨a, by simp, h⟩
      · exact Or.inl (by simp [h])
    | succ n' =>
      simp [modifyIdx] at h
      rcases h with h | h
      · exact Or.inl (by simp [h])
      · rcases ih h with h' | h'
        · exact Or.inl (List.mem_cons_of_mem _ h')
        · obtain ⟨y, hy, hxy⟩ := h'
          exact Or.inr ⟨y, List.mem_cons_of_mem _ hy, hxy⟩

/-- `enqueue` preserves the whole-queue invariant. -/
theorem enqueue_inv [DecidableEq E] {q : PriorityQueue E T} (hinv : Inv q)
    (prio : Nat) (e : E) (t : T) : Inv (enqueue q prio e t).2 := by
  unfold enqueue
  by_cases hp : prio < q.queues.length
  · simp only [hp, if_pos]
    intro lvl hl
    rcases mem_modifyIdx hl with h' | h'
    · exact hinv lvl h'
    · obtain ⟨y, hy, hxy⟩ := h'
      rw [hxy]
      exact levelEnqueue_inv (hinv y hy) e t
  · simp only [hp, if_neg, not_false_iff]
    exact hinv

/-- `tryDequeueLevels` preserves the invariant of every level. -/
theorem tryDequeueLevels_inv [DecidableEq E] {ls : List (PriorityLevel E T)}
    (hinv : ∀ lvl ∈ ls, LevelInv lvl) :
    ∀ lvl' ∈ (tryDequeueLevels ls).2, LevelInv lvl' := by
  induction ls with
  | nil => simp [tryDequeueLevels]
  | cons lvl rest ih =>
    unfold tryDequeueLevels
    cases hl : levelTryDequeue lvl with
    | mk r lvl1 =>
      have hlvl1 : LevelInv lvl1 :=
        levelTryDequeue_inv (hinv lvl (by simp)) hl
      cases r with
      | some et =>
        obtain ⟨e, t⟩ := et
        simp only
        intro lvl' hl'
        simp at hl'
        rcases hl' with hl' | hl'
        · rw [hl']; exact hlvl1
        · exact hinv lvl' (List.mem_cons_of_mem _ hl')
      | none =>
        simp only
        intro lvl' hl'
        simp at hl'
        rcases hl' with hl' | hl'
        · rw [hl']; exact hlvl1
        · exact ih (fun l hml => hinv l (List.mem_cons_of_mem _ hml)) lvl' hl'

/-- `tryDequeueA` preserves the whole-queue invariant. -/
theorem tryDequeueA_inv [DecidableEq E] {q : PriorityQueue E T} (hinv : Inv q) :
    Inv (tryDequeueA q).2 := by
  unfold tryDequeueA
  intro lvl hl
  exact tryDequeueLevels_inv hinv lvl hl

/-- One step preserves the invariant. -/
theorem qStep_inv [DecidableEq E] {q : PriorityQueue E T} (hinv : Inv q)
    (op : QOp E T) : Inv (qStep q op) := by
  cases op with
  | enq p e t => exact enqueue_inv hinv p e t
  | deq => exact tryDequeueA_inv hinv

/-- A fresh queue satisfies the invariant. -/
theorem new_inv [DecidableEq E] (n_prio : Nat) :
    Inv (PriorityQueue.new E T n_prio) := by
  intro lvl hl
  simp [PriorityQueue.new] at hl
  rw [hl.2]
  refine ⟨?_, ?_, ?_, ?_, ?_, ?_⟩ <;> simp [PriorityLevel.new]

/-- Running any trace preserves the invariant. -/
theorem runPQ_inv [DecidableEq E] {q : PriorityQueue E T} (hinv : Inv q)
    (ops : List (QOp E T)) : Inv (runPQ q ops) := by
  induction ops generalizing q with
  | nil => exact hinv
  | cons op rest ih => exact ih (qStep_inv hinv op)

/-! ### Emptiness -/

/-- Under the invariant, if every roster is empty then `try_dequeue` fails
and leaves all levels unchanged. -/
theorem tryDequeueLevels_all_empty [DecidableEq E] {ls : List (PriorityLevel E T)}
    (hinv : ∀ lvl ∈ ls, LevelInv lvl) (hrr : ∀ lvl ∈ ls, lvl.rr = []) :
    tryDequeueLevels ls = (none, ls) := by
  induction ls with
  | nil => simp [tryDequeueLevels]
  | cons lvl rest ih =>
    have h0 : levelTryDequeue lvl = (none, lvl) :=
      (levelTryDequeue_spec lvl (hinv lvl (by simp))).1 (hrr lvl (by simp))
    unfold tryDequeueLevels
    rw [h0]
    simp only
    rw [ih (fun l hl => hinv l (List.mem_cons_of_mem _ hl))
          (fun l hl => hrr l (List.mem_cons_of_mem _ hl))]
    simp

/-- Under the invariant, a failing `try_dequeue` means every roster is empty
(and conversely). -/
theorem tryDequeueLevels_none_iff [DecidableEq E] {ls : List (PriorityLevel E T)}
    (hinv : ∀ lvl ∈ ls, LevelInv lvl) :
    (tryDequeueLevels ls).1 = none ↔ ∀ lvl ∈ ls, lvl.rr = [] := by
  constructor
  · intro hnone
    induction ls with
    | nil => simp
    | cons lvl rest ih =>
      unfold tryDequeueLevels at hnone
      cases hl : levelTryDequeue lvl with
      | mk r lvl1 =>
        rw [hl] at hnone
        cases r with
        | some et =>
          obtain ⟨e, t⟩ := et
          simp at hnone
        | none =>
          have hemp := levelTryDequeue_none_of_inv (hinv lvl (by simp)) hl
          simp at hnone
          intro l hml
          rcases List.mem_cons.mp hml with h' | h'
          · rw [h']; exact hemp.1
          · exact ih (fun x hx => hinv x (List.mem_cons_of_mem _ hx))
              (by simpa using hnone) l h'
  · intro hrr
    rw [tryDequeueLevels_all_empty hinv hrr]

/-- Under the invariant, `isEmpty` agrees with `try_dequeue` failing. -/
theorem isEmpty_iff_tryDequeue_none [DecidableEq E] {q : PriorityQueue E T}
    (hinv : Inv q) : isEmpty q = true ↔ (tryDequeueA q).1 = none := by
  rw [tryDequeueA]
  simp only
  rw [tryDequeueLevels_none_iff hinv]
  simp [isEmpty, List.isEmpty_iff]

/-! ### Claim C4: level invariants of every reachable state -/

/-- C4.  Level invariant preservation: every state of the fair queue reachable
from a fresh queue by any sequence of `enqueue` / `try_dequeue` operations
satisfies, at every priority level: `actives` is the set of entities in `rr`;
`actives` is the set of entities with a non-empty deque in `by_entities`;
`by_entities` holds no empty deque; and `rr` has no duplicate entities. -/
theorem claim_C4_level_invariants {E T : Type} [DecidableEq E] (n_prio : Nat)
    (ops : List (QOp E T)) :
    ∀ lvl ∈ (runPQ (PriorityQueue.new E T n_prio) ops).queues,
      (∀ e, e ∈ lvl.actives ↔ e ∈ lvl.rr) ∧
      (∀ e, e ∈ lvl.actives ↔ ∃ l, lookupE e lvl.by_entities = some l ∧ l ≠ []) ∧
      (∀ kv ∈ lvl.by_entities, kv.2 ≠ []) ∧
      lvl.rr.Nodup := by
  intro lvl hl
  have hinv := runPQ_inv (new_inv n_prio) ops lvl hl
  obtain ⟨h1, h2, h3, h4, h5, h6⟩ := hinv
  refine ⟨?_, ?_, ?_, h5⟩
  · intro e
    exact ⟨h1 e, h2 e⟩
  · intro e
    constructor
    · intro he
      obtain ⟨t, its, hlk⟩ :=
        LevelInv.lookup_active ⟨h1, h2, h3, h4, h5, h6⟩ he
      exact ⟨t :: its, hlk, by simp⟩
    · rintro ⟨l, hlk, hne⟩
      exact (h4 (e, l) (lookupE_mem hlk)).2
  · intro kv hkv
    exact (h4 kv hkv).1

/-! ### Claim C9: invalid priorities are rejected without mutation -/

/-- C9.  For every priority at or beyond `n_prio` (the length of the level
list), `enqueue` returns `BadPriority(prio)` and leaves the queue unchanged;
in particular a queue whose level list is empty rejects every enqueue this
way. -/
theorem claim_C9_bad_priority {E T : Type} [DecidableEq E]
    (q : PriorityQueue E T) (prio : Nat) (e : E) (t : T)
    (h : q.queues.length ≤ prio) :
    enqueue q prio e t = (Except.error (PQError.BadPriority prio), q) ∧
    (q.queues = [] → ∀ p' e' t', enqueue q p' e' t'
      = (Except.error (PQError.BadPriority p'), q)) := by
  constructor
  · unfold enqueue
    rw [if_neg (by omega)]
  · intro hq p' e' t'
    unfold enqueue
    rw [if_neg (by rw [hq]; simp)]

/-! ### Claim C8: the emptiness predicate -/

/-- C8.  `is_empty` (modelled from the spec, since its definition is not in
the `pq-fair` source) returns `true` iff every level's `rr` roster is empty;
moreover, under the reachable-state invariant, this is exactly the condition
under which `try_dequeue` yields nothing, which is the predicate the sync
wrapper's `dequeue` and shutdown waits test. -/
theorem claim_C8_is_empty {E T : Type} [DecidableEq E] (q : PriorityQueue E T) :
    (isEmpty q = true ↔ ∀ lvl ∈ q.queues, lvl.rr = []) ∧
    (Inv q → (isEmpty q = true ↔ (tryDequeue q).1 = none)) := by
  constructor
  · simp [isEmpty, List.isEmpty_iff]
  · intro hinv
    rw [tryDequeue]
    simp only
    rw [isEmpty_iff_tryDequeue_none hinv]
    cases (tryDequeueA q).1 <;> simp

/-! ### Stored items, as lists of (level, item) pairs -/

/-- All items stored in an association list, concatenated. -/
def valuesFlat : List (E × List T) → List T
  | [] => []
  | kv :: rest => kv.2 ++ valuesFlat rest

/-- All items stored at one level. -/
def levelStored (lvl : PriorityLevel E T) : List T :=
  valuesFlat lvl.by_entities

/-- `(level index, item)` pairs of a list of levels, starting at index `i`. -/
def levelsPairs (i : Nat) : List (PriorityLevel E T) → List (Nat × T)
  | [] => []
  | lvl :: rest => (levelStored lvl).map (fun t => (i, t)) ++ levelsPairs (i + 1) rest

/-- `(level index, item)` pairs of all items stored in the queue. -/
def storedPairs (q : PriorityQueue E T) : List (Nat × T) :=
  levelsPairs 0 q.queues

/-- The items stored at level `p` of the queue (empty if `p` is out of
range). -/
def storedAtLevel (q : PriorityQueue E T) (p : Nat) : List T :=
  ((q.queues[p]?).map levelStored).getD []

theorem valuesFlat_append (m₁ m₂ : List (E × List T)) :
    valuesFlat (m₁ ++ m₂) = valuesFlat m₁ ++ valuesFlat m₂ := by
  induction m₁ with
  | nil => simp [valuesFlat]
  | cons kv rest ih => simp [valuesFlat, ih]

theorem mem_valuesFlat_of_mem {m : List (E × List T)} {kv : E × List T}
    (hkv : kv ∈ m) {x : T} (hx : x ∈ kv.2) : x ∈ valuesFlat m := by
  induction m with
  | nil => simp at hkv
  | cons kv0 rest ih =>
    rcases List.mem_cons.mp hkv with h | h
    · subst h
      simp [valuesFlat]
      exact Or.inl hx
    · simp [valuesFlat]
      exact Or.inr (ih h)

theorem levelsPairs_append (i : Nat) (A B : List (PriorityLevel E T)) :
    levelsPairs i (A ++ B) = levelsPairs i A ++ levelsPairs (i + A.length) B := by
  induction A generalizing i with
  | nil => simp [levelsPairs]
  | cons lvl rest ih =>
    have h1 : i + 1 + rest.length = i + (rest.length + 1) := by omega
    simp [levelsPairs, ih (i + 1), h1]

theorem mem_levelsPairs {i j : Nat} {x : T} {ls : List (PriorityLevel E T)} :
    (j, x) ∈ levelsPairs i ls ↔
      ∃ k lvl, ls[k]? = some lvl ∧ j = i + k ∧ x ∈ levelStored lvl := by
  induction ls generalizing i with
  | nil => simp [levelsPairs]
  | cons lvl rest ih =>
    simp only [levelsPairs, List.mem_append, List.mem_map, ih]
    constructor
    · rintro (⟨t, ht, htj⟩ | ⟨k, lvl', hk, hj, hx⟩)
      · cases htj
        exact ⟨0, lvl, by simp, by omega, ht⟩
      · exact ⟨k + 1, lvl', by simpa using hk, by omega, hx⟩
    · rintro ⟨k, lvl', hk, hj, hx⟩
      cases k with
      | zero =>
        simp at hk
        subst hk
        exact Or.inl ⟨x, hx, by simp [hj]⟩
      | succ k' =>
        simp at hk
        exact Or.inr ⟨k', lvl', by simpa using hk, by omega, hx⟩

/-- Under the invariant, a level with an empty roster stores nothing. -/
theorem levelInv_rr_nil [DecidableEq E] {lvl : PriorityLevel E T}
    (hinv : LevelInv lvl) (hrr : lvl.rr = []) : lvl.by_entities = [] := by
  cases hbe : lvl.by_entities with
  | nil => rfl
  | cons kv rest =>
    have hm : kv ∈ lvl.by_entities := by rw [hbe]; simp
    have := (hinv.2.2.2.1 kv hm).2
    have := hinv.1 kv.1 this
    rw [hrr] at this
    simp at this

/-- First-occurrence decomposition of a successful lookup. -/
theorem lookupE_decomp [DecidableEq E] {e : E} {m : List (E × List T)}
    {v : List T} (h : lookupE e m = some v) :
    ∃ m₁ m₂, m = m₁ ++ (e, v) :: m₂ ∧ ∀ kv ∈ m₁, kv.1 ≠ e := by
  induction m with
  | nil => simp [lookupE] at h
  | cons kv rest ih =>
    obtain ⟨k, w⟩ := kv
    by_cases hk : k = e
    · subst hk
      simp [lookupE] at h
      subst h
      exact ⟨[], rest, by simp⟩
    · simp [lookupE, hk] at h
      obtain ⟨m₁, m₂, hm, hfree⟩ := ih h
      refine ⟨(k, w) :: m₁, m₂, by simp [hm], ?_⟩
      intro kv hkv
      rcases List.mem_cons.mp hkv with h' | h'
      · subst h'
        exact hk
      · exact hfree kv h'

theorem mapSet_decomp [DecidableEq E] {e : E} {v : List T}
    {m₁ m₂ : List (E × List T)} (hfree : ∀ kv ∈ m₁, kv.1 ≠ e) (l : List T) :
    mapSet e l (m₁ ++ (e, v) :: m₂) = m₁ ++ (e, l) :: m₂ := by
  induction m₁ with
  | nil => simp [mapSet]
  | cons kv rest ih =>
    obtain ⟨k, w⟩ := kv
    have hk : k ≠ e := hfree (k, w) (by simp)
    simp [mapSet, hk, ih (fun kv hkv => hfree kv (List.mem_cons_of_mem _ hkv))]

theorem mapRemove_decomp [DecidableEq E] {e : E} {v : List T}
    {m₁ m₂ : List (E × List T)}
    (hnd : ((m₁ ++ (e, v) :: m₂).map Prod.fst).Nodup) :
    mapRemove e (m₁ ++ (e, v) :: m₂) = m₁ ++ m₂ := by
  simp only [List.map_append, List.map_cons] at hnd
  rw [List.nodup_append] at hnd
  obtain ⟨hnd₁, hnd₂, hdisj⟩ := hnd
  have hfree₁ : ∀ kv ∈ m₁, kv.1 ≠ e := by
    intro kv hkv hc
    exact hdisj (List.mem_map_of_mem Prod.fst hkv) (by simp [hc])
  have hfree₂ : ∀ kv ∈ m₂, kv.1 ≠ e := by
    intro kv hkv hc
    have := List.nodup_cons.mp hnd₂
    exact this.1 (hc ▸ List.mem_map_of_mem Prod.fst hkv)
  unfold mapRemove
  rw [List.filter_append, List.filter_cons]
  rw [if_neg (by simp)]
  rw [List.filter_eq_self.mpr (fun kv hkv => by simpa using hfree₁ kv hkv),
      List.filter_eq_self.mpr (fun kv hkv => by simpa using hfree₂ kv hkv)]

/-- A served level loses exactly the served item, as a multiset. -/
theorem levelTryDequeue_stored_perm [DecidableEq E] {lvl : PriorityLevel E T}
    (hinv : LevelInv lvl) {e : E} {rr' : List E} (hrr : lvl.rr = e :: rr') :
    ∃ t its, lookupE e lvl.by_entities = some (t :: its) ∧
      (levelTryDequeue lvl).1 = some (e, t) ∧
      (levelStored lvl).Perm (t :: levelStored (levelTryDequeue lvl).2) := by
  obtain ⟨t, its, hlk, hspec⟩ := (levelTryDequeue_spec lvl hinv).2 e rr' hrr
  refine ⟨t, its, hlk, by rw [hspec], ?_⟩
  obtain ⟨m₁, m₂, hm, hfree⟩ := lookupE_decomp hlk
  rw [hspec]
  cases hi : its.isEmpty with
  | true =>
    have hits : its = [] := List.isEmpty_iff.mp hi
    subst hits
    rw [if_pos rfl]
    simp only [levelStored, hm]
    rw [mapRemove_decomp (hm ▸ hinv.2.2.2.2.2)]
    have hL : valuesFlat (m₁ ++ (e, [t]) :: m₂)
        = valuesFlat m₁ ++ t :: valuesFlat m₂ := by
      rw [valuesFlat_append]
      simp [valuesFlat]
    rw [hL, valuesFlat_append]
    exact List.perm_middle
  | false =>
    rw [if_neg (by simp)]
    simp only [levelStored, hm]
    rw [mapSet_decomp hfree]
    have hL : valuesFlat (m₁ ++ (e, t :: its) :: m₂)
        = valuesFlat m₁ ++ t :: (its ++ valuesFlat m₂) := by
      rw [valuesFlat_append]
      simp [valuesFlat]
    have hR : valuesFlat (m₁ ++ (e, its) :: m₂)
        = valuesFlat m₁ ++ (its ++ valuesFlat m₂) := by
      rw [valuesFlat_append]
      simp [valuesFlat]
    rw [hL, hR]
    exact List.perm_middle

theorem levelsPairs_eq_nil {ls : List (PriorityLevel E T)} (i : Nat)
    (h : ∀ lvl ∈ ls, lvl.by_entities = []) : levelsPairs i ls = [] := by
  induction ls generalizing i with
  | nil => simp [levelsPairs]
  | cons lvl rest ih =>
    simp only [levelsPairs]
    rw [ih (i + 1) (fun l hl => h l (List.mem_cons_of_mem _ hl))]
    simp [levelStored, h lvl (by simp), valuesFlat]

/-- Unfolding of the drain loop when `try_dequeue` fails. -/
theorem drainA_none [DecidableEq E] {q q' : PriorityQueue E T}
    (h : tryDequeueA q = (none, q')) : drainA q = ([], q') := by
  conv_lhs => unfold drainA
  split
  next q1 h1 =>
    rw [h] at h1
    simp at h1
    rw [h1]
  next a q1 h1 =>
    rw [h] at h1
    simp at h1

/-- Unfolding of the drain loop when `try_dequeue` succeeds. -/
theorem drainA_some [DecidableEq E] {q q' : PriorityQueue E T}
    {a : Nat × E × T} (h : tryDequeueA q = (some a, q')) :
    drainA q = (a :: (drainA q').1, (drainA q').2) := by
  conv_lhs => unfold drainA
  split
  next q1 h1 =>
    rw [h] at h1
    simp at h1
  next b q1 h1 =>
    rw [h] at h1
    simp at h1
    rw [← h1.1, ← h1.2]

/-- Characterization of a successful `tryDequeueLevels` under the invariant:
every level before the served one has an empty roster and is untouched; the
served level has the served entity at the head of its roster, the served item
at the head of that entity's deque, and is transformed by `levelTryDequeue`. -/
theorem tryDequeueLevels_some_spec [DecidableEq E]
    {ls : List (PriorityLevel E T)} (hinv : ∀ lvl ∈ ls, LevelInv lvl)
    {p : Nat} {e : E} {t : T} {ls' : List (PriorityLevel E T)}
    (h : tryDequeueLevels ls = (some (p, e, t), ls')) :
    ∃ ls₀ lvl ls₁ rr' its,
      ls = ls₀ ++ lvl :: ls₁ ∧ ls₀.length = p ∧ (∀ l ∈ ls₀, l.rr = []) ∧
      lvl.rr = e :: rr' ∧ lookupE e lvl.by_entities = some (t :: its) ∧
      ls' = ls₀ ++ (levelTryDequeue lvl).2 :: ls₁ := by
  induction ls generalizing p ls' with
  | nil => simp [tryDequeueLevels] at h
  | cons lvl rest ih =>
    unfold tryDequeueLevels at h
    cases hl : levelTryDequeue lvl with
    | mk r lvl1 =>
      rw [hl] at h
      cases r with
      | some et =>
        obtain ⟨e0, t0⟩ := et
        simp at h
        obtain ⟨⟨hp, he, ht⟩, hls⟩ := h
        cases hrr : lvl.rr with
        | nil =>
          rw [(levelTryDequeue_spec lvl (hinv lvl (by simp))).1 hrr] at hl
          simp at hl
        | cons e1 rr1 =>
          obtain ⟨t1, its1, hlk1, hspec1⟩ :=
            (levelTryDequeue_spec lvl (hinv lvl (by simp))).2 e1 rr1 hrr
          rw [hspec1] at hl
          simp at hl
          obtain ⟨⟨he1, ht1⟩, hl2⟩ := hl
          refine ⟨[], lvl, rest, rr1, its1, by simp, by simp [← hp], by simp,
            ?_, ?_, ?_⟩
          · rw [hrr, he1, he]
          · rw [he1, he, ht1, ht] at hlk1
            exact hlk1
          · rw [← hls]
            simp
            rw [hspec1]
            exact hl2.symm
      | none =>
        obtain ⟨hrr0, hlvl1⟩ := levelTryDequeue_none_of_inv (hinv lvl (by simp)) hl
        cases hrest : tryDequeueLevels rest with
        | mk rr rest' =>
          rw [hrest] at h
          cases rr with
          | none => simp at h
          | some b =>
            obtain ⟨p1, e1, t1⟩ := b
            simp at h
            obtain ⟨⟨hp, he, ht⟩, hls⟩ := h
            subst he ht
            obtain ⟨ls₀, lvlx, ls₁, rr', its, hdec, hlen, hemp, hrrx, hlk, hls'⟩ :=
              ih (fun l hl => hinv l (List.mem_cons_of_mem _ hl)) hrest
            refine ⟨lvl :: ls₀, lvlx, ls₁, rr', its, by simp [hdec],
              by simp [hlen]; omega, ?_, hrrx, hlk, ?_⟩
            · intro l hl
              rcases List.mem_cons.mp hl with h' | h'
              · rw [h']
                exact hrr0
              · exact hemp l h'
            · rw [← hls, hlvl1]
              simp [hls']

/-- Characterization of a successful annotated `try_dequeue` on the whole
queue, under the invariant: every level below the served one stores nothing
and is untouched, the served item is stored at the served level, and as a
multiset the queue loses exactly the served item. -/
theorem tryDequeueA_some_spec [DecidableEq E] {q : PriorityQueue E T}
    (hinv : Inv q) {p : Nat} {e : E} {t : T} {q' : PriorityQueue E T}
    (h : tryDequeueA q = (some (p, e, t), q')) :
    (∀ p' < p, storedAtLevel q p' = []) ∧
    t ∈ storedAtLevel q p ∧
    (∀ p' < p, q'.queues[p']? = q.queues[p']?) ∧
    (storedPairs q).Perm ((p, t) :: storedPairs q') ∧
    q'.queues.length = q.queues.length := by
  have hq : tryDequeueLevels q.queues = (some (p, e, t), q'.queues) := by
    have h' := h
    unfold tryDequeueA at h'
    cases hr : tryDequeueLevels q.queues with
    | mk r1 r2 =>
      rw [hr] at h'
      simp at h'
      rw [h'.1, ← h'.2]
  obtain ⟨ls₀, lvl, ls₁, rr', its, hdec, hlen, hemp, hrr, hlk, hls'⟩ :=
    tryDequeueLevels_some_spec hinv hq
  have hq0 : ∀ l ∈ ls₀, l.by_entities = [] := by
    intro l hl
    exact levelInv_rr_nil (hinv l (by rw [hdec]; exact List.mem_append_left _ hl))
      (hemp l hl)
  have hlvlmem : lvl ∈ q.queues := by
    rw [hdec]
    exact List.mem_append_right _ (by simp)
  refine ⟨?_, ?_, ?_, ?_, ?_⟩
  · intro p' hp'
    have hp'' : p' < ls₀.length := by omega
    unfold storedAtLevel
    rw [hdec, List.getElem?_append, if_pos hp'', List.getElem?_eq_getElem hp'']
    simp [levelStored, hq0 _ (List.getElem_mem hp''), valuesFlat]
  · unfold storedAtLevel
    rw [hdec, List.getElem?_append, if_neg (by omega)]
    have : p - ls₀.length = 0 := by omega
    rw [this]
    simp only [List.getElem?_cons_zero, Option.map_some, Option.getD_some]
    exact mem_valuesFlat_of_mem (lookupE_mem hlk) (by simp)
  · intro p' hp'
    have hp'' : p' < ls₀.length := by omega
    rw [hdec, hls', List.getElem?_append, if_pos hp'',
      List.getElem?_append, if_pos hp'']
  · obtain ⟨t2, its2, hlk2, _, hperm⟩ :=
      levelTryDequeue_stored_perm (hinv lvl hlvlmem) hrr
    rw [hlk] at hlk2
    simp at hlk2
    obtain ⟨rfl, rfl⟩ := hlk2
    unfold storedPairs
    rw [hdec, hls', levelsPairs_append, levelsPairs_append,
      levelsPairs_eq_nil 0 hq0]
    simp only [List.nil_append, Nat.zero_add, hlen, levelsPairs]
    have hmap : ((levelStored lvl).map (fun x => (p, x))).Perm
        ((p, t) :: (levelStored (levelTryDequeue lvl).2).map (fun x => (p, x))) := by
      have := hperm.map (fun x => (p, x))
      simpa using this
    have h1 := hmap.append_right (levelsPairs (p + 1) ls₁)
    simpa using h1
  · rw [hdec, hls']
    simp

theorem tryDequeueA_snd_inv [DecidableEq E] {q q' : PriorityQueue E T}
    {r : Option (Nat × E × T)} (hinv : Inv q) (hd : tryDequeueA q = (r, q')) :
    Inv q' := by
  have := tryDequeueA_inv hinv
  rw [hd] at this
  exact this

/-- Draining yields each stored item exactly once, annotated with its level:
the multiset of (level, item) pairs of the drain sequence equals the multiset
of stored (level, item) pairs. -/
theorem drainPairs_perm [DecidableEq E] (q : PriorityQueue E T) (hinv : Inv q) :
    ((drainA q).1.map (fun a => (a.1, a.2.2))).Perm (storedPairs q) := by
  cases hd : tryDequeueA q with
  | mk r q' =>
    cases r with
    | none =>
      rw [drainA_none hd]
      have hrr : ∀ lvl ∈ q.queues, lvl.rr = [] := by
        rw [← tryDequeueLevels_none_iff hinv]
        unfold tryDequeueA at hd
        simp at hd
        rw [hd.1]
      have : storedPairs q = [] := by
        unfold storedPairs
        exact levelsPairs_eq_nil 0
          (fun l hl => levelInv_rr_nil (hinv l hl) (hrr l hl))
      rw [this]
      simp
    | some a =>
      obtain ⟨p, e, t⟩ := a
      rw [drainA_some hd]
      have hspec := tryDequeueA_some_spec hinv hd
      have hinv' : Inv q' := tryDequeueA_snd_inv hinv hd
      have ih := drainPairs_perm q' hinv'
      simp only [List.map_cons]
      exact (ih.cons (p, t)).trans hspec.2.2.2.1.symm
termination_by totalItems q
decreasing_by
  exact tryDequeueA_some_totalItems_lt q _ q' hd

/-- If every level below `k` stores nothing, all drained items come from
levels at or above `k`. -/
theorem drainSeqA_ge [DecidableEq E] (q : PriorityQueue E T) (hinv : Inv q)
    (k : Nat) (hbelow : ∀ p' < k, storedAtLevel q p' = []) :
    ∀ a ∈ (drainA q).1, k ≤ a.1 := by
  cases hd : tryDequeueA q with
  | mk r q' =>
    cases r with
    | none =>
      rw [drainA_none hd]
      simp
    | some a0 =>
      obtain ⟨p, e, t⟩ := a0
      rw [drainA_some hd]
      have hspec := tryDequeueA_some_spec hinv hd
      have hinv' : Inv q' := tryDequeueA_snd_inv hinv hd
      have hkp : k ≤ p := by
        by_contra hlt
        push_neg at hlt
        have h0 := hbelow p hlt
        have ht := hspec.2.1
        rw [h0] at ht
        simp at ht
      have hbelow' : ∀ p' < p, storedAtLevel q' p' = [] := by
        intro p' hp'
        unfold storedAtLevel
        rw [hspec.2.2.1 p' hp']
        have := hspec.1 p' hp'
        unfold storedAtLevel at this
        exact this
      intro a ha
      rcases List.mem_cons.mp ha with ha | ha
      · rw [ha]
        exact hkp
      · have := drainSeqA_ge q' hinv' p hbelow' a ha
        omega
termination_by totalItems q
decreasing_by
  exact tryDequeueA_some_totalItems_lt q _ q' hd

/-- The level annotations of the drain sequence are nondecreasing: once the
drain has moved past a priority level it never returns to it. -/
theorem drainSeqA_sorted [DecidableEq E] (q : PriorityQueue E T) (hinv : Inv q) :
    ((drainA q).1.map (fun a => a.1)).Pairwise (· ≤ ·) := by
  cases hd : tryDequeueA q with
  | mk r q' =>
    cases r with
    | none =>
      rw [drainA_none hd]
      simp
    | some a0 =>
      obtain ⟨p, e, t⟩ := a0
      rw [drainA_some hd]
      have hspec := tryDequeueA_some_spec hinv hd
      have hinv' : Inv q' := tryDequeueA_snd_inv hinv hd
      have hbelow' : ∀ p' < p, storedAtLevel q' p' = [] := by
        intro p' hp'
        unfold storedAtLevel
        rw [hspec.2.2.1 p' hp']
        have := hspec.1 p' hp'
        unfold storedAtLevel at this
        exact this
      have hge := drainSeqA_ge q' hinv' p hbelow'
      have ih := drainSeqA_sorted q' hinv'
      simp only [List.map_cons]
      refine List.Pairwise.cons ?_ ih
      intro b hb
      rw [List.mem_map] at hb
      obtain ⟨a, ha, hab⟩ := hb
      have := hge a ha
      omega
termination_by totalItems q
decreasing_by
  exact tryDequeueA_some_totalItems_lt q _ q' hd

/-- Membership in the stored pairs agrees with per-level storage. -/
theorem mem_storedPairs_iff [DecidableEq E] {q : PriorityQueue E T} {p : Nat}
    {x : T} : (p, x) ∈ storedPairs q ↔ x ∈ storedAtLevel q p := by
  unfold storedPairs storedAtLevel
  rw [mem_levelsPairs]
  constructor
  · rintro ⟨k, lvl, hk, hp, hx⟩
    have : p = k := by omega
    subst this
    rw [hk]
    simpa using hx
  · intro hx
    cases hk : q.queues[p]? with
    | none =>
      rw [hk] at hx
      simp at hx
    | some lvl =>
      rw [hk] at hx
      simp at hx
      exact ⟨p, lvl, hk, by omega, hx⟩

/-! ### Claim C1: priority strictness -/

/-- C1.  Priority strictness: under the reachable-state invariant, whenever
`try_dequeue` returns an item, that item was stored at the annotated level `p`
and every level strictly below `p` stored nothing — an item at priority `p` is
never returned while an item at a lower priority value is stored.  Moreover,
for any two stored items `x` at level `px` and `y` at level `py` with
`px < py` (e.g. both enqueued before any dequeue), repeatedly calling
`try_dequeue` returns `x` strictly before `y`. -/
theorem claim_C1_priority_strictness {E T : Type} [DecidableEq E]
    (q : PriorityQueue E T) (hinv : Inv q) :
    (∀ p e t q', tryDequeueA q = (some (p, e, t), q') →
      t ∈ storedAtLevel q p ∧ ∀ p' < p, storedAtLevel q p' = []) ∧
    (∀ px py x y, px < py → x ∈ storedAtLevel q px → y ∈ storedAtLevel q py →
      ∃ i j : Nat, ∃ ex ey : E, i < j ∧
        (drainSeqA q)[i]? = some (px, ex, x) ∧
        (drainSeqA q)[j]? = some (py, ey, y)) := by
  constructor
  · intro p e t q' h
    have hspec := tryDequeueA_some_spec hinv h
    exact ⟨hspec.2.1, hspec.1⟩
  · intro px py x y hlt hx hy
    have hperm := drainPairs_perm q hinv
    have hxd : (px, x) ∈ (drainA q).1.map (fun a => (a.1, a.2.2)) :=
      hperm.symm.subset (mem_storedPairs_iff.mpr hx)
    have hyd : (py, y) ∈ (drainA q).1.map (fun a => (a.1, a.2.2)) :=
      hperm.symm.subset (mem_storedPairs_iff.mpr hy)
    rw [List.mem_map] at hxd hyd
    obtain ⟨ax, hax, haxe⟩ := hxd
    obtain ⟨ay, hay, haye⟩ := hyd
    obtain ⟨px', ex, tx⟩ := ax
    obtain ⟨py', ey, ty⟩ := ay
    simp at haxe haye
    obtain ⟨i, hilt, hieq⟩ := List.mem_iff_getElem.mp hax
    obtain ⟨j, hjlt, hjeq⟩ := List.mem_iff_getElem.mp hay
    refine ⟨i, j, ex, ey, ?_, ?_, ?_⟩
    · -- the sorted level annotations force i < j
      have hsorted := drainSeqA_sorted q hinv
      by_contra hij
      push_neg at hij
      rcases Nat.lt_or_ge j i with hji | hji
      · have := List.pairwise_iff_getElem.mp hsorted j i
          (by simpa using hjlt) (by simpa using hilt) hji
        simp only [List.getElem_map] at this
        rw [hieq, hjeq] at this
        simp at this
        omega
      · have hji' : j = i := by omega
        subst hji'
        rw [hieq] at hjeq
        have hpp : px' = py' := by
          have := congrArg Prod.fst hjeq
          simpa using this
        omega
    · unfold drainSeqA
      rw [List.getElem?_eq_getElem hilt, hieq, haxe.1, haxe.2]
    · unfold drainSeqA
      rw [List.getElem?_eq_getElem hjlt, hjeq, haye.1, haye.2]

/-! ### Claim C3: per-entity FIFO -/

/-- The items a trace enqueues at `(p, e)`, in submission order. -/
def enqList [DecidableEq E] (p : Nat) (e : E) : List (QOp E T) → List T
  | [] => []
  | QOp.enq p' e' t :: rest =>
    if p' = p ∧ e' = e then t :: enqList p e rest else enqList p e rest
  | QOp.deq :: rest => enqList p e rest

/-- The annotated results of the `deq` steps of a trace, in order. -/
def outA [DecidableEq E] (q : PriorityQueue E T) :
    List (QOp E T) → List (Nat × E × T)
  | [] => []
  | QOp.enq p e t :: rest => outA (enqueue q p e t).2 rest
  | QOp.deq :: rest =>
    match tryDequeueA q with
    | (some a, q') => a :: outA q' rest
    | (none, q') => outA q' rest

/-- The dequeued items of the trace that originate from `(p, e)`. -/
def outList [DecidableEq E] (p : Nat) (e : E) (q : PriorityQueue E T)
    (ops : List (QOp E T)) : List T :=
  (outA q ops).filterMap
    (fun a => if a.1 = p ∧ a.2.1 = e then some a.2.2 else none)

/-- The deque currently stored for entity `e` at level `p`. -/
def entityQueue [DecidableEq E] (q : PriorityQueue E T) (p : Nat) (e : E) :
    List T :=
  ((q.queues[p]?).map (fun lvl => (lookupE e lvl.by_entities).getD [])).getD []

theorem modifyIdx_length (f : α → α) (n : Nat) (ls : List α) :
    (modifyIdx f n ls).length = ls.length := by
  induction ls generalizing n with
  | nil => simp [modifyIdx]
  | cons x xs ih =>
    cases n with
    | zero => simp [modifyIdx]
    | succ n' => simp [modifyIdx, ih]

theorem getElem?_modifyIdx_ne (f : α → α) {n m : Nat} (h : m ≠ n)
    (ls : List α) : (modifyIdx f n ls)[m]? = ls[m]? := by
  induction ls generalizing n m with
  | nil => simp [modifyIdx]
  | cons x xs ih =>
    cases n with
    | zero =>
      cases m with
      | zero => omega
      | succ m' => simp [modifyIdx]
    | succ n' =>
      cases m with
      | zero => simp [modifyIdx]
      | succ m' =>
        have hmn : m' ≠ n' := by omega
        simp [modifyIdx, ih hmn]

theorem getElem?_modifyIdx_self (f : α → α) {n : Nat} {ls : List α}
    {x : α} (h : ls[n]? = some x) : (modifyIdx f n ls)[n]? = some (f x) := by
  induction ls generalizing n with
  | nil => simp at h
  | cons a xs ih =>
    cases n with
    | zero =>
      simp at h
      simp [modifyIdx, h]
    | succ n' =>
      simp at h
      simp [modifyIdx, ih h]

/-- Under the invariant, a failing `try_dequeue` leaves the queue unchanged. -/
theorem tryDequeueA_none_of_inv [DecidableEq E] {q q' : PriorityQueue E T}
    (hinv : Inv q) (h : tryDequeueA q = (none, q')) : q' = q := by
  unfold tryDequeueA at h
  cases hr : tryDequeueLevels q.queues with
  | mk r1 r2 =>
    rw [hr] at h
    simp at h
    have hrr : ∀ lvl ∈ q.queues, lvl.rr = [] := by
      rw [← tryDequeueLevels_none_iff hinv, hr, h.1]
    have := tryDequeueLevels_all_empty hinv hrr
    rw [hr] at this
    simp at this
    rw [← h.2, this.2]

/-- Effect of a successful `try_dequeue` on the per-entity deques: levels
other than the served one are untouched, the served entity's deque loses its
head, and all other entities' deques at that level are untouched. -/
theorem tryDequeueA_entity [DecidableEq E] {q : PriorityQueue E T}
    (hinv : Inv q) {pa : Nat} {ea : E} {ta : T} {q' : PriorityQueue E T}
    (h : tryDequeueA q = (some (pa, ea, ta), q')) :
    (∀ p', p' ≠ pa → q'.queues[p']? = q.queues[p']?) ∧
    entityQueue q pa ea = ta :: entityQueue q' pa ea ∧
    (∀ e', e' ≠ ea → entityQueue q' pa e' = entityQueue q pa e') := by
  have hq : tryDequeueLevels q.queues = (some (pa, ea, ta), q'.queues) := by
    have h' := h
    unfold tryDequeueA at h'
    cases hr : tryDequeueLevels q.queues with
    | mk r1 r2 =>
      rw [hr] at h'
      simp at h'
      rw [h'.1, ← h'.2]
  obtain ⟨ls₀, lvl, ls₁, rr', its, hdec, hlen, hemp, hrr, hlk, hls'⟩ :=
    tryDequeueLevels_some_spec hinv hq
  have hget : q.queues[pa]? = some lvl := by
    rw [hdec, List.getElem?_append, if_neg (by omega)]
    have : pa - ls₀.length = 0 := by omega
    rw [this]
    simp
  have hget' : q'.queues[pa]? = some (levelTryDequeue lvl).2 := by
    rw [hls', List.getElem?_append, if_neg (by omega)]
    have : pa - ls₀.length = 0 := by omega
    rw [this]
    simp
  refine ⟨?_, ?_, ?_⟩
  · intro p' hp'
    rcases Nat.lt_or_ge p' pa with hlt | hge
    · have hp'' : p' < ls₀.length := by omega
      rw [hdec, hls', List.getElem?_append, if_pos hp'',
        List.getElem?_append, if_pos hp'']
    · have hgt : pa < p' := by omega
      have hp₁ : ¬ p' < ls₀.length := by omega
      rw [hdec, hls', List.getElem?_append, if_neg hp₁,
        List.getElem?_append, if_neg hp₁]
      have : p' - ls₀.length = (p' - ls₀.length - 1) + 1 := by omega
      rw [this]
      simp
  · obtain ⟨t2, its2, hlk2, hfst, _⟩ :=
      levelTryDequeue_stored_perm (hinv lvl (by rw [hdec]; simp)) hrr
    rw [hlk] at hlk2
    simp at hlk2
    obtain ⟨rfl, rfl⟩ := hlk2
    unfold entityQueue
    rw [hget, hget']
    simp only [Option.map_some', Option.getD_some]
    rw [hlk]
    obtain ⟨t3, its3, hlk3, hspec3⟩ :=
      (levelTryDequeue_spec lvl (hinv lvl (by rw [hdec]; simp))).2 ea rr' hrr
    rw [hlk] at hlk3
    simp at hlk3
    obtain ⟨rfl, rfl⟩ := hlk3
    rw [hspec3]
    cases hi : its.isEmpty with
    | true =>
      have : its = [] := List.isEmpty_iff.mp hi
      subst this
      rw [if_pos rfl]
      simp [lookupE_mapRemove_self]
    | false =>
      rw [if_neg (by simp [hi])]
      simp [lookupE_mapSet_self hlk]
  · intro e' he'
    obtain ⟨t3, its3, hlk3, hspec3⟩ :=
      (levelTryDequeue_spec lvl (hinv lvl (by rw [hdec]; simp))).2 ea rr' hrr
    unfold entityQueue
    rw [hget, hget']
    simp only [Option.map_some', Option.getD_some]
    rw [hspec3]
    cases hi : its3.isEmpty with
    | true =>
      rw [if_pos rfl]
      simp [lookupE_mapRemove_ne he']
    | false =>
      rw [if_neg (by simp)]
      simp [lookupE_mapSet_ne he']

theorem entityQueue_congr [DecidableEq E] {q q' : PriorityQueue E T} {p : Nat}
    (h : q'.queues[p]? = q.queues[p]?) (e : E) :
    entityQueue q' p e = entityQueue q p e := by
  unfold entityQueue
  rw [h]

/-- Effect of `enqueue` on a per-entity deque: only the targeted deque
changes, gaining the new item at its tail. -/
theorem enqueue_entityQueue [DecidableEq E] {q : PriorityQueue E T}
    (p' : Nat) (e' : E) (t : T) {p : Nat} (e : E) (hp : p < q.queues.length) :
    entityQueue (enqueue q p' e' t).2 p e
      = entityQueue q p e ++ (if p' = p ∧ e' = e then [t] else []) := by
  unfold enqueue
  by_cases hp' : p' < q.queues.length
  · rw [if_pos hp']
    by_cases hpp : p' = p
    · subst hpp
      have hq : q.queues[p']? = some q.queues[p'] := List.getElem?_eq_getElem hp'
      unfold entityQueue
      simp only
      rw [getElem?_modifyIdx_self _ hq, hq]
      simp only [Option.map_some', Option.getD_some]
      by_cases hee : e' = e
      · subst hee
        simp only [and_true, if_pos rfl]
        rw [levelEnqueue, lookupE_mapPush_self]
        simp
      · simp only [hee, and_false, if_neg, not_false_iff]
        rw [levelEnqueue, lookupE_mapPush_ne (fun hc => hee hc.symm)]
        simp
    · unfold entityQueue
      simp only
      rw [getElem?_modifyIdx_ne _ (fun hc => hpp hc.symm)]
      simp [hpp]
  · rw [if_neg hp']
    have : ¬ (p' = p ∧ e' = e) := by
      rintro ⟨rfl, _⟩
      omega
    simp [this]

/-- The FIFO accounting identity: the `(p, e)` items already dequeued,
followed by the `(p, e)` deque of the final state, equal the `(p, e)` deque
of the initial state followed by the `(p, e)` items enqueued by the trace. -/
theorem outList_spec [DecidableEq E] {q : PriorityQueue E T} (hinv : Inv q)
    {p : Nat} (e : E) (hp : p < q.queues.length) (ops : List (QOp E T)) :
    outList p e q ops ++ entityQueue (runPQ q ops) p e
      = entityQueue q p e ++ enqList p e ops := by
  induction ops generalizing q with
  | nil => simp [outList, outA, runPQ, enqList]
  | cons op rest ih =>
    cases op with
    | enq p' e' t =>
      have hq1inv : Inv (enqueue q p' e' t).2 := enqueue_inv hinv p' e' t
      have hlen1 : p < (enqueue q p' e' t).2.queues.length := by
        unfold enqueue
        by_cases hp' : p' < q.queues.length
        · rw [if_pos hp']
          simpa [modifyIdx_length] using hp
        · rw [if_neg hp']
          exact hp
      have hstep := ih hq1inv hlen1
      have houtA : outA q (QOp.enq p' e' t :: rest)
          = outA (enqueue q p' e' t).2 rest := rfl
      have hrun : runPQ q (QOp.enq p' e' t :: rest)
          = runPQ (enqueue q p' e' t).2 rest := rfl
      unfold outList
      rw [houtA, hrun]
      have : (outA (enqueue q p' e' t).2 rest).filterMap
          (fun a => if a.1 = p ∧ a.2.1 = e then some a.2.2 else none)
          = outList p e (enqueue q p' e' t).2 rest := rfl
      rw [this, hstep, enqueue_entityQueue p' e' t e hp]
      by_cases hc : p' = p ∧ e' = e
      · obtain ⟨rfl, rfl⟩ := hc
        simp [enqList]
      · have hc' : ¬ (p' = p ∧ e' = e) := hc
        simp only [enqList, if_neg hc', hc', if_neg, not_false_iff]
        simp
    | deq =>
      cases hd : tryDequeueA q with
      | mk r q' =>
        cases r with
        | none =>
          have hq' : q' = q := tryDequeueA_none_of_inv hinv hd
          subst hq'
          have houtA : outA q' (QOp.deq :: rest) = outA q' rest := by
            conv_lhs => unfold outA
            rw [hd]
          have hstepq : qStep q' QOp.deq = q' := by
            show (tryDequeueA q').2 = q'
            rw [hd]
          have hrun : runPQ q' (QOp.deq :: rest) = runPQ q' rest := by
            unfold runPQ
            simp only [List.foldl_cons]
            rw [hstepq]
          unfold outList
          rw [houtA, hrun]
          exact ih hinv hp
        | some a =>
          obtain ⟨pa, ea, ta⟩ := a
          have hent := tryDequeueA_entity hinv hd
          have hinv' : Inv q' := tryDequeueA_snd_inv hinv hd
          have hlen' : p < q'.queues.length := by
            rw [(tryDequeueA_some_spec hinv hd).2.2.2.2]
            exact hp
          have ihq := ih hinv' hlen'
          have houtA : outA q (QOp.deq :: rest) = (pa, ea, ta) :: outA q' rest := by
            conv_lhs => unfold outA
            rw [hd]
          have hstepq : qStep q QOp.deq = q' := by
            show (tryDequeueA q).2 = q'
            rw [hd]
          have hrun : runPQ q (QOp.deq :: rest) = runPQ q' rest := by
            unfold runPQ
            simp only [List.foldl_cons]
            rw [hstepq]
          unfold outList
          rw [houtA, hrun, List.filterMap_cons]
          have henq : enqList p e (QOp.deq :: rest) = enqList p e rest := rfl
          rw [henq]
          by_cases hc : pa = p ∧ ea = e
          · obtain ⟨rfl, rfl⟩ := hc
            have hsome : (if (pa, ea, ta).1 = pa ∧ (pa, ea, ta).2.1 = ea
                then some (pa, ea, ta).2.2 else none) = some ta := by simp
            rw [hsome, List.cons_append]
            unfold outList at ihq
            rw [ihq, hent.2.1, List.cons_append]
          · have hval : (if (pa, ea, ta).1 = p ∧ (pa, ea, ta).2.1 = e
                then some (pa, ea, ta).2.2 else none) = none := by
              simp only
              rw [if_neg hc]
            rw [hval]
            have heq : entityQueue q' p e = entityQueue q p e := by
              by_cases hpa : pa = p
              · subst hpa
                have hea : e ≠ ea := by
                  intro hc'
                  exact hc ⟨rfl, hc'.symm⟩
                exact hent.2.2 e (fun hc' => hea hc')
              · exact entityQueue_congr (hent.1 p (fun hc' => hpa hc'.symm)) e
            unfold outList at ihq
            rw [ihq, heq]

/-- C3.  Per-entity FIFO: for every valid priority `p` and entity `e`, the
items a trace dequeues from `(p, e)` (identified by the annotated origin of
each `try_dequeue` result) form exactly a prefix of the items the trace
enqueued at `(p, e)`, in submission order — dequeued in enqueue order for
every interleaving of operations. -/
theorem claim_C3_per_entity_fifo {E T : Type} [DecidableEq E]
    (n_prio : Nat) (ops : List (QOp E T)) (p : Nat) (e : E)
    (hp : p < n_prio) :
    outList p e (PriorityQueue.new E T n_prio) ops
      = (enqList p e ops).take
          (outList p e (PriorityQueue.new E T n_prio) ops).length := by
  have hlen : p < (PriorityQueue.new E T n_prio).queues.length := by
    show p < (List.replicate n_prio (PriorityLevel.new E T)).length
    simpa using hp
  have h0 : entityQueue (PriorityQueue.new E T n_prio) p e = [] := by
    unfold entityQueue
    have hg : (PriorityQueue.new E T n_prio).queues[p]?
        = some (PriorityLevel.new E T) := by
      show (List.replicate n_prio (PriorityLevel.new E T))[p]? = _
      rw [List.getElem?_replicate, if_pos hp]
    rw [hg]
    simp [PriorityLevel.new, lookupE]
  have hmain := outList_spec (new_inv n_prio) e hlen ops
  rw [h0] at hmain
  simp at hmain
  rw [← hmain]
  rw [List.take_left]

/-! ### Claim C2: round-robin fairness within one level -/

/-- A single operation at one priority level. -/
inductive LOp (E T : Type) where
  | enq (e : E) (t : T)
  | deq
  deriving DecidableEq, Repr

/-- The state transformation of one level operation. -/
def lStep [DecidableEq E] (lvl : PriorityLevel E T) : LOp E T → PriorityLevel E T
  | LOp.enq e t => levelEnqueue lvl e t
  | LOp.deq => (levelTryDequeue lvl).2

/-- Run a sequence of operations on one level. -/
def runLevel [DecidableEq E] (lvl : PriorityLevel E T)
    (ops : List (LOp E T)) : PriorityLevel E T :=
  ops.foldl lStep lvl

/-- The entities served by the `deq` steps of a level trace, in order. -/
def servedSeq [DecidableEq E] (lvl : PriorityLevel E T) :
    List (LOp E T) → List E
  | [] => []
  | LOp.enq e t :: rest => servedSeq (levelEnqueue lvl e t) rest
  | LOp.deq :: rest =>
    match levelTryDequeue lvl with
    | (some (e, _), lvl') => e :: servedSeq lvl' rest
    | (none, lvl') => servedSeq lvl' rest

/-- Number of `deq` steps in a level trace. -/
def numDeq : List (LOp E T) → Nat
  | [] => 0
  | LOp.enq _ _ :: rest => numDeq rest
  | LOp.deq :: rest => numDeq rest + 1

/-- One left rotation of a roster. -/
def rot : List E → List E
  | [] => []
  | x :: xs => xs ++ [x]

/-- The first `d` entries of the cyclic repetition of a roster. -/
def cycleTake (r : List E) : Nat → List E
  | 0 => []
  | d + 1 =>
    match r with
    | [] => []
    | x :: xs => x :: cycleTake (xs ++ [x]) d

theorem rot_length (r : List E) : (rot r).length = r.length := by
  cases r <;> simp [rot]

theorem mem_rot {x : E} {r : List E} : x ∈ rot r ↔ x ∈ r := by
  cases r with
  | nil => simp [rot]
  | cons a l =>
    simp [rot]
    tauto

theorem rot_iterate_length (j : Nat) (r : List E) :
    (rot^[j] r).length = r.length := by
  induction j generalizing r with
  | zero => simp
  | succ j' ih =>
    rw [Function.iterate_succ_apply]
    rw [ih, rot_length]

theorem mem_rot_iterate {x : E} (j : Nat) {r : List E} :
    x ∈ rot^[j] r ↔ x ∈ r := by
  induction j generalizing r with
  | zero => simp
  | succ j' ih =>
    rw [Function.iterate_succ_apply, ih, mem_rot]

theorem cycleTake_nil (d : Nat) : cycleTake ([] : List E) d = [] := by
  cases d <;> simp [cycleTake]

theorem drop_one_cycleTake (r : List E) (d : Nat) :
    (cycleTake r d).drop 1 = cycleTake (rot r) (d - 1) := by
  cases d with
  | zero => simp [cycleTake]
  | succ d' =>
    cases r with
    | nil => simp [cycleTake, rot, cycleTake_nil]
    | cons x xs => simp [cycleTake, rot]

theorem drop_cycleTake (j : Nat) (r : List E) (d : Nat) :
    (cycleTake r d).drop j = cycleTake (rot^[j] r) (d - j) := by
  induction j generalizing r d with
  | zero => simp
  | succ j' ih =>
    have h1 : (cycleTake r d).drop (j' + 1)
        = ((cycleTake r d).drop 1).drop j' := by
      rw [List.drop_drop]
      congr 1
      omega
    rw [h1, drop_one_cycleTake, ih]
    rw [Function.iterate_succ_apply]
    congr 1
    omega

theorem take_cycleTake (k : Nat) (r : List E) (d : Nat)
    (hk : k ≤ r.length) (hd : k ≤ d) :
    (cycleTake r d).take k = r.take k := by
  induction k generalizing r d with
  | zero => simp
  | succ k' ih =>
    cases d with
    | zero => omega
    | succ d' =>
      cases r with
      | nil => simp at hk
      | cons x xs =>
        simp only [cycleTake, List.take_succ_cons]
        congr 1
        simp at hk
        rw [ih (xs ++ [x]) d' (by simp; omega) (by omega)]
        rw [List.take_append_of_le_length (by omega)]

/-- Under the invariant, while the set of active entities stays equal to
`Eset` throughout a level trace, the roster only rotates: the sequence of
served entities is the cyclic repetition of the initial roster. -/
theorem servedSeq_cycle [DecidableEq E] (lvl : PriorityLevel E T)
    (hinv : LevelInv lvl) (Eset : Finset E) (hne : Eset.Nonempty)
    (ops : List (LOp E T))
    (hact : ∀ n, n ≤ ops.length →
      (runLevel lvl (ops.take n)).actives.toFinset = Eset) :
    servedSeq lvl ops = cycleTake lvl.rr (numDeq ops) := by
  induction ops generalizing lvl with
  | nil => simp [servedSeq, numDeq, cycleTake]
  | cons op rest ih =>
    have hact0 : lvl.actives.toFinset = Eset := by
      have := hact 0 (by omega)
      simpa [runLevel] using this
    have hact1 : (lStep lvl op).actives.toFinset = Eset := by
      have := hact 1 (by simp)
      simpa [runLevel, List.take_succ_cons, List.foldl_cons] using this
    have hactrest : ∀ n, n ≤ rest.length →
        (runLevel (lStep lvl op) (rest.take n)).actives.toFinset = Eset := by
      intro n hn
      have := hact (n + 1) (by simp; omega)
      simpa [runLevel, List.take_succ_cons, List.foldl_cons] using this
    cases op with
    | enq e t =>
      -- the entity must already be active, so `rr` and `actives` are unchanged
      have hmem : e ∈ lvl.actives := by
        by_contra hmem
        have : (levelEnqueue lvl e t).actives = e :: lvl.actives := by
          simp [levelEnqueue, setInsert, hmem]
        have h1 : (lStep lvl (LOp.enq e t)).actives.toFinset
            = insert e lvl.actives.toFinset := by
          show (levelEnqueue lvl e t).actives.toFinset = _
          rw [this]
          simp
        rw [hact0, hact1] at h1
        have : e ∈ Eset := by
          rw [h1]
          simp
        rw [← hact0] at this
        simp at this
        exact hmem this
      have hrr : (levelEnqueue lvl e t).rr = lvl.rr := by
        simp [levelEnqueue, setInsert, hmem]
      have hinv' : LevelInv (levelEnqueue lvl e t) := levelEnqueue_inv hinv e t
      show servedSeq (levelEnqueue lvl e t) rest = cycleTake lvl.rr (numDeq rest)
      rw [ih (levelEnqueue lvl e t) hinv' hactrest, hrr]
    | deq =>
      -- the roster is non-empty and the head entity is rotated, not evicted
      obtain ⟨e0, he0⟩ := hne
      have he0' : e0 ∈ lvl.actives := by
        rw [← hact0] at he0
        simpa using he0
      have hrrne : lvl.rr ≠ [] := by
        intro hc
        have := hinv.1 e0 he0'
        rw [hc] at this
        simp at this
      cases hrr : lvl.rr with
      | nil => exact absurd hrr hrrne
      | cons hd tl =>
        obtain ⟨t, its, hlk, hspec⟩ := (levelTryDequeue_spec lvl hinv).2 hd tl hrr
        have hhd : hd ∈ lvl.actives := hinv.2.1 hd (by rw [hrr]; simp)
        -- eviction would remove `hd` from the active set, contradicting hact1
        have hrot : its.isEmpty = false := by
          by_contra hc
          rw [Bool.not_eq_false] at hc
          have hstep : (lStep lvl LOp.deq).actives = setRemove hd lvl.actives := by
            show (levelTryDequeue lvl).2.actives = _
            rw [hspec, if_pos hc]
          have hnot : hd ∉ (lStep lvl LOp.deq).actives.toFinset := by
            rw [hstep]
            simp [setRemove]
          rw [hact1] at hnot
          refine hnot ?_
          rw [← hact0]
          simpa using hhd
        have hnotc : ¬ its.isEmpty = true := by
          rw [hrot]
          simp
        have hlvl' : (levelTryDequeue lvl).2
            = ⟨mapSet hd its lvl.by_entities, tl ++ [hd], lvl.actives⟩ := by
          rw [hspec, if_neg hnotc]
        have hM : levelTryDequeue lvl
            = (some (hd, t), (levelTryDequeue lvl).2) := by
          rw [hspec]
        have hinv' : LevelInv (levelTryDequeue lvl).2 :=
          levelTryDequeue_inv hinv hM
        have hserved : servedSeq lvl (LOp.deq :: rest)
            = hd :: servedSeq (levelTryDequeue lvl).2 rest := by
          conv_lhs => unfold servedSeq
          rw [hM]
        rw [hserved]
        have hnd : numDeq (LOp.deq :: rest) = numDeq rest + 1 := rfl
        rw [hnd]
        show hd :: servedSeq (levelTryDequeue lvl).2 rest
          = hd :: cycleTake (tl ++ [hd]) (numDeq rest)
        congr 1
        have hih := ih (levelTryDequeue lvl).2 hinv' hactrest
        rw [hih, hlvl']

/-- C2.  Round-robin fairness within a level: for any level trace throughout
which the set of active entities stays equal to `Eset` (as recorded by
`actives`), every window of `|Eset|` consecutive served entities contains
every entity of `Eset`; and the serving mechanism is exactly: the served
entity is pushed back to the tail of `rr` when its deque is still non-empty,
and otherwise removed from `by_entities` and `actives`. -/
theorem claim_C2_round_robin_fairness {E T : Type} [DecidableEq E]
    (lvl : PriorityLevel E T) (hinv : LevelInv lvl) (Eset : Finset E)
    (hne : Eset.Nonempty) (ops : List (LOp E T))
    (hact : ∀ n, n ≤ ops.length →
      (runLevel lvl (ops.take n)).actives.toFinset = Eset) :
    (∀ j, j + Eset.card ≤ numDeq ops → ∀ e ∈ Eset,
      e ∈ ((servedSeq lvl ops).drop j).take Eset.card) ∧
    (∀ e rr' t its, lvl.rr = e :: rr' →
      lookupE e lvl.by_entities = some (t :: its) →
      levelTryDequeue lvl =
        (some (e, t),
          if its.isEmpty then
            ⟨mapRemove e lvl.by_entities, rr', setRemove e lvl.actives⟩
          else
            ⟨mapSet e its lvl.by_entities, rr' ++ [e], lvl.actives⟩)) := by
  have hact0 : lvl.actives.toFinset = Eset := by
    have := hact 0 (by omega)
    simpa [runLevel] using this
  have hrrfin : lvl.rr.toFinset = Eset := by
    rw [← hact0]
    apply Finset.ext
    intro x
    simp only [List.mem_toFinset]
    exact ⟨fun hx => hinv.2.1 x hx, fun hx => hinv.1 x hx⟩
  have hcard : Eset.card = lvl.rr.length := by
    rw [← hrrfin, List.toFinset_card_of_nodup hinv.2.2.2.2.1]
  constructor
  · intro j hj e he
    rw [servedSeq_cycle lvl hinv Eset hne ops hact]
    rw [drop_cycleTake]
    rw [take_cycleTake Eset.card (rot^[j] lvl.rr) (numDeq ops - j)
      (by rw [rot_iterate_length]; omega) (by omega)]
    have hlen2 : Eset.card = (rot^[j] lvl.rr).length := by
      rw [rot_iterate_length, hcard]
    rw [hlen2, List.take_length, mem_rot_iterate]
    have : e ∈ lvl.rr.toFinset := by
      rw [hrrfin]
      exact he
    simpa using this
  · intro e rr' t its hrr hlk
    obtain ⟨t', its', hlk', hspec⟩ := (levelTryDequeue_spec lvl hinv).2 e rr' hrr
    rw [hlk] at hlk'
    simp at hlk'
    obtain ⟨rfl, rfl⟩ := hlk'
    exact hspec

/-! ### The drain loop of `shutdown_immediate` -/

/-- Under the invariant, a fully drained queue has every roster empty. -/
theorem drain_empty [DecidableEq E] (q : PriorityQueue E T) (hinv : Inv q) :
    ∀ lvl ∈ (drain q).queues, lvl.rr = [] := by
  cases hd : tryDequeueA q with
  | mk r q' =>
    cases r with
    | none =>
      unfold drain
      rw [drainA_none hd]
      have hq' : q' = q := tryDequeueA_none_of_inv hinv hd
      subst hq'
      rw [← tryDequeueLevels_none_iff hinv]
      unfold tryDequeueA at hd
      simp at hd
      rw [hd.1]
    | some a =>
      unfold drain
      rw [drainA_some hd]
      have hinv' : Inv q' := tryDequeueA_snd_inv hinv hd
      have := drain_empty q' hinv'
      unfold drain at this
      exact this
termination_by totalItems q
decreasing_by
  exact tryDequeueA_some_totalItems_lt q _ q' hd

/-- Under the invariant, draining preserves the invariant. -/
theorem drain_inv [DecidableEq E] (q : PriorityQueue E T) (hinv : Inv q) :
    Inv (drain q) := by
  cases hd : tryDequeueA q with
  | mk r q' =>
    have hinv' : Inv q' := tryDequeueA_snd_inv hinv hd
    cases r with
    | none =>
      unfold drain
      rw [drainA_none hd]
      exact hinv'
    | some a =>
      unfold drain
      rw [drainA_some hd]
      have := drain_inv q' hinv'
      unfold drain at this
      exact this
termination_by totalItems q
decreasing_by
  exact tryDequeueA_some_totalItems_lt q _ q' hd

/-- Under the invariant, draining an already-empty queue does nothing. -/
theorem drain_of_empty [DecidableEq E] {q : PriorityQueue E T} (hinv : Inv q)
    (hrr : ∀ lvl ∈ q.queues, lvl.rr = []) : drain q = q := by
  have h0 : tryDequeueA q = (none, q) := by
    unfold tryDequeueA
    rw [tryDequeueLevels_all_empty hinv hrr]
  unfold drain
  rw [drainA_none h0]

/-- Under the invariant, draining is idempotent. -/
theorem drain_idem [DecidableEq E] (q : PriorityQueue E T) (hinv : Inv q) :
    drain (drain q) = drain q :=
  drain_of_empty (drain_inv q hinv) (drain_empty q hinv)

/-! ### The synchronized wrapper (`src/crates/pq-sync/src/lib.rs`) -/

/-- `struct State<E, T> { pq: PriorityQueue<E, T>, closed: bool }`: the data
guarded by the single mutex of `SyncPriorityQueue`. -/
structure SyncState (E T : Type) where
  pq : PriorityQueue E T
  closed : Bool
  deriving DecidableEq, Repr

/-- The critical section of `SyncPriorityQueue::enqueue`: fail with `Closed`
when the closed flag is set (before any priority validation), otherwise
delegate to the fair queue, propagating `BadPriority` unchanged. -/
def syncEnqueue [DecidableEq E] (st : SyncState E T) (prio : Nat) (e : E)
    (t : T) : Except PQError Unit × SyncState E T :=
  if st.closed then
    (Except.error PQError.Closed, st)
  else
    let r := enqueue st.pq prio e t
    (r.1, ⟨r.2, st.closed⟩)

/-- The critical section of `SyncPriorityQueue::try_dequeue`: delegate
unconditionally (a closed queue still drains). -/
def syncTryDequeue [DecidableEq E] (st : SyncState E T) :
    Option T × SyncState E T :=
  let r := tryDequeue st.pq
  (r.1, ⟨r.2, st.closed⟩)

/-- The critical section of `SyncPriorityQueue::dequeue` once the
`wait_while` predicate has released the consumer: pop via the fair queue,
returning `Closed` when nothing is there. -/
def syncDequeueWake [DecidableEq E] (st : SyncState E T) :
    Except PQError T × SyncState E T :=
  match tryDequeue st.pq with
  | (some v, pq') => (Except.ok v, ⟨pq', st.closed⟩)
  | (none, pq') => (Except.error PQError.Closed, ⟨pq', st.closed⟩)

/-- `SyncPriorityQueue::shutdown_immediate`: set `closed`, then drain the
inner queue (`while st.pq.try_dequeue().is_some() {}`); always `Ok`. -/
def shutdownImmediate [DecidableEq E] (st : SyncState E T) :
    Except PQError Unit × SyncState E T :=
  (Except.ok (), ⟨drain st.pq, true⟩)

/-- The common first step of `shutdown_graceful` / `shutdown_timeout`:
`st.closed = true`. -/
def shutdownEnter (st : SyncState E T) : SyncState E T :=
  ⟨st.pq, true⟩

/-- `shutdown_graceful` when the queue is already empty: broadcast and
return `Ok` at once (`some`); otherwise (`none`) the call blocks on the
condition variable. -/
def shutdownGracefulFast (st : SyncState E T) :
    Option (Except PQError Unit × SyncState E T) :=
  let st1 := shutdownEnter st
  if isEmpty st1.pq then some (Except.ok (), st1) else none

/-- The return of a blocked `shutdown_graceful`, at a wake-up where the
queue has become empty (the `wait_while !is_empty` predicate released it). -/
def shutdownGracefulFinish (st' : SyncState E T) :
    Except PQError Unit × SyncState E T :=
  (Except.ok (), st')

/-- `shutdown_timeout` when the queue is already empty: `Ok` at once. -/
def shutdownTimeoutFast (st : SyncState E T) :
    Option (Except PQError Unit × SyncState E T) :=
  let st1 := shutdownEnter st
  if isEmpty st1.pq then some (Except.ok (), st1) else none

/-- The return of a blocked `shutdown_timeout` at the end of the timed wait.
`timedOut` is `wait_res.timed_out()`.  The emptiness of the queue is
re-tested before deciding, so a timeout that races with the queue becoming
empty still returns `Ok`. -/
def shutdownTimeoutFinish (st' : SyncState E T) (timedOut : Bool) :
    Except PQError Unit × SyncState E T :=
  if timedOut && !(isEmpty st'.pq) then (Except.error PQError.Timeout, st')
  else (Except.ok (), st')

/-- The critical sections that may run on the shared state between two
observations of it (the mutex serializes them): producers' enqueues,
non-blocking dequeues, blocking dequeues past their wait predicate, and the
mutating phases of the shutdown calls. -/
inductive SyncStep [DecidableEq E] : SyncState E T → SyncState E T → Prop where
  | enq (st : SyncState E T) (prio : Nat) (e : E) (t : T) :
      SyncStep st (syncEnqueue st prio e t).2
  | tryDeq (st : SyncState E T) : SyncStep st (syncTryDequeue st).2
  | deqWake (st : SyncState E T)
      (hwake : isEmpty st.pq = false ∨ st.closed = true) :
      SyncStep st (syncDequeueWake st).2
  | sImm (st : SyncState E T) : SyncStep st (shutdownImmediate st).2
  | sEnter (st : SyncState E T) : SyncStep st (shutdownEnter st)

/-- Any serialized interleaving of critical sections. -/
def SyncSteps [DecidableEq E] : SyncState E T → SyncState E T → Prop :=
  Relation.ReflTransGen SyncStep

/-- No critical section ever resets the closed flag. -/
theorem syncStep_closed_mono [DecidableEq E] {st st' : SyncState E T}
    (h : SyncStep st st') (hc : st.closed = true) : st'.closed = true := by
  cases h with
  | enq prio e t =>
    simp [syncEnqueue, hc]
  | tryDeq =>
    simp [syncTryDequeue, hc]
  | deqWake hwake =>
    unfold syncDequeueWake
    cases htd : tryDequeue st.pq with
    | mk r pq' =>
      cases r <;> simp [htd, hc]
  | sImm =>
    simp [shutdownImmediate]
  | sEnter =>
    simp [shutdownEnter]

theorem syncSteps_closed_mono [DecidableEq E] {st st' : SyncState E T}
    (h : SyncSteps st st') (hc : st.closed = true) : st'.closed = true := by
  induction h with
  | refl => exact hc
  | tail _ hlast ih => exact syncStep_closed_mono hlast ih

/-! ### Claim C5: close monotonicity -/

/-- C5.  Every shutdown variant sets the closed flag, and once it is set no
interleaving of critical sections ever resets it; from then on every
`enqueue`, for every priority, entity and item, fails with `Closed` and
leaves the state untouched. -/
theorem claim_C5_close_monotonic {E T : Type} [DecidableEq E]
    (st st' : SyncState E T) :
    (shutdownImmediate st).2.closed = true ∧
    (shutdownEnter st).closed = true ∧
    (st.closed = true → SyncSteps st st' →
      st'.closed = true ∧
      ∀ prio e t, syncEnqueue st' prio e t
        = (Except.error PQError.Closed, st')) := by
  refine ⟨rfl, rfl, ?_⟩
  intro hc hsteps
  have hc' : st'.closed = true := syncSteps_closed_mono hsteps hc
  refine ⟨hc', ?_⟩
  intro prio e t
  simp [syncEnqueue, hc']

/-! ### Claim C10: Closed takes precedence over BadPriority -/

/-- C10.  On a closed state, `enqueue` returns `Closed` for every input and
never reports `BadPriority`, even when the priority is out of range: the
closed check runs before the delegation that validates the priority. -/
theorem claim_C10_closed_precedence {E T : Type} [DecidableEq E]
    (st : SyncState E T) (hc : st.closed = true) (prio : Nat) (e : E) (t : T) :
    syncEnqueue st prio e t = (Except.error PQError.Closed, st) ∧
    (st.pq.queues.length ≤ prio →
      (syncEnqueue st prio e t).1 ≠ Except.error (PQError.BadPriority prio)) := by
  constructor
  · simp [syncEnqueue, hc]
  · intro hbad
    simp [syncEnqueue, hc]

/-! ### Claim C6: when `shutdown_timeout` reports `Timeout` -/

/-- C6.  For a `shutdown_timeout` call that takes the wait path (queue
non-empty on entry), given the wake state `st'` reached by any interleaving
of critical sections and the timed wait's exit condition (a non-timed-out
exit implies the queue emptied): the call returns `Timeout` iff the wait
ended with the queue still non-empty; if the queue is empty at the end of
the wait — even when the wait simultaneously timed out — it returns `Ok`;
and on `Timeout` the state is left exactly `st'`, which is still closed, so
a later `enqueue` still fails with `Closed` while `try_dequeue` still
delegates to the fair queue and returns the retained items. -/
theorem claim_C6_timeout_iff {E T : Type} [DecidableEq E]
    (st st' : SyncState E T) (timedOut : Bool)
    (hne : isEmpty st.pq = false)
    (hsteps : SyncSteps (shutdownEnter st) st')
    (hwait : timedOut = false → isEmpty st'.pq = true) :
    ((shutdownTimeoutFinish st' timedOut).1 = Except.error PQError.Timeout
      ↔ isEmpty st'.pq = false) ∧
    (isEmpty st'.pq = true →
      shutdownTimeoutFinish st' timedOut = (Except.ok (), st')) ∧
    ((shutdownTimeoutFinish st' timedOut).1 = Except.error PQError.Timeout →
      (shutdownTimeoutFinish st' timedOut).2 = st' ∧
      st'.closed = true ∧
      (∀ prio e t, syncEnqueue st' prio e t
        = (Except.error PQError.Closed, st')) ∧
      (syncTryDequeue st').1 = (tryDequeue st'.pq).1) := by
  have hc' : st'.closed = true := syncSteps_closed_mono hsteps rfl
  refine ⟨?_, ?_, ?_⟩
  · constructor
    · intro hres
      cases hemp : isEmpty st'.pq with
      | false => rfl
      | true =>
        unfold shutdownTimeoutFinish at hres
        rw [hemp] at hres
        simp at hres
    · intro hemp
      have htimed : timedOut = true := by
        cases hto : timedOut with
        | true => rfl
        | false =>
          have := hwait hto
          rw [this] at hemp
          cases hemp
      unfold shutdownTimeoutFinish
      rw [htimed, hemp]
      simp
  · intro hemp
    unfold shutdownTimeoutFinish
    rw [hemp]
    simp
  · intro hres
    have hemp : isEmpty st'.pq = false := by
      cases hemp : isEmpty st'.pq with
      | false => rfl
      | true =>
        unfold shutdownTimeoutFinish at hres
        rw [hemp] at hres
        simp at hres
    have hst : (shutdownTimeoutFinish st' timedOut).2 = st' := by
      unfold shutdownTimeoutFinish
      cases timedOut <;> simp [hemp]
    refine ⟨hst, hc', ?_, rfl⟩
    intro prio e t
    simp [syncEnqueue, hc']

/-! ### Claim C7: shutdown idempotence -/

/-- C7, counterexample to the claim as stated.  "Calling the same shutdown
variant twice succeeds both times" fails for `shutdown_timeout`: on a queue
holding one item with no consumer running (the wake state equals the entry
state, reachable by the empty interleaving, and the wait timed out), already
the first call returns `Timeout` rather than success. -/
theorem claim_C7_counterexample :
    (shutdownTimeoutFast
        (⟨⟨[⟨[(0, [5])], [0], [0]⟩]⟩, false⟩ : SyncState Nat Nat) = none) ∧
    SyncSteps
      (shutdownEnter (⟨⟨[⟨[(0, [5])], [0], [0]⟩]⟩, false⟩ : SyncState Nat Nat))
      (shutdownEnter (⟨⟨[⟨[(0, [5])], [0], [0]⟩]⟩, false⟩ : SyncState Nat Nat)) ∧
    (shutdownTimeoutFinish
        (shutdownEnter (⟨⟨[⟨[(0, [5])], [0], [0]⟩]⟩, false⟩ : SyncState Nat Nat))
        true).1
      = Except.error PQError.Timeout ∧
    (Except.error PQError.Timeout : Except PQError Unit) ≠ Except.ok () := by
  refine ⟨rfl, Relation.ReflTransGen.refl, rfl, ?_⟩
  exact fun h => Except.noConfusion h

/-- C7, amended.  `shutdown_immediate` is unconditionally idempotent: a
second call returns `Ok` again and leaves the state exactly as the first
call did.  For `shutdown_graceful` and `shutdown_timeout`, once the queue is
closed and empty — the state in which any completed graceful shutdown and
any `Ok`-returning timed shutdown leaves it, as the last conjunct shows — a
repeated call takes the fast path, returns `Ok` and is a no-op. -/
theorem claim_C7_shutdown_idempotent_amended {E T : Type} [DecidableEq E]
    (st : SyncState E T) (hinv : Inv st.pq) :
    shutdownImmediate ((shutdownImmediate st).2)
      = (Except.ok (), (shutdownImmediate st).2) ∧
    (st.closed = true → isEmpty st.pq = true →
      shutdownGracefulFast st = some (Except.ok (), st) ∧
      shutdownTimeoutFast st = some (Except.ok (), st) ∧
      shutdownGracefulFinish st = (Except.ok (), st)) ∧
    (∀ (st' : SyncState E T) (timedOut : Bool),
      (timedOut = false → isEmpty st'.pq = true) →
      (shutdownTimeoutFinish st' timedOut).1 = Except.ok () →
      isEmpty (shutdownTimeoutFinish st' timedOut).2.pq = true) := by
  refine ⟨?_, ?_, ?_⟩
  · unfold shutdownImmediate
    rw [drain_idem st.pq hinv]
  · intro hc hemp
    have hst : shutdownEnter st = st := by
      unfold shutdownEnter
      rw [← hc]
    refine ⟨?_, ?_, rfl⟩
    · unfold shutdownGracefulFast
      rw [hst, if_pos hemp]
    · unfold shutdownTimeoutFast
      rw [hst, if_pos hemp]
  · intro st' timedOut hwait hok
    cases hemp : isEmpty st'.pq with
    | true =>
      unfold shutdownTimeoutFinish
      cases timedOut <;> simp [hemp]
    | false =>
      have htimed : timedOut = true := by
        cases hto : timedOut with
        | true => rfl
        | false =>
          rw [hwait hto] at hemp
          cases hemp
      unfold shutdownTimeoutFinish at hok
      rw [htimed, hemp] at hok
      simp at hok

/-! ### Concrete sample states for the witnesses -/

/-- One level holding a single item of entity `0`. -/
def sampleLevel : PriorityLevel Nat Nat := ⟨[(0, [5])], [0], [0]⟩

/-- A one-level queue holding a single item. -/
def samplePQ : PriorityQueue Nat Nat := ⟨[sampleLevel]⟩

/-- A two-level queue: item `7` of entity `0` at level `0`, item `9` of
entity `1` at level `1`. -/
def samplePQ2 : PriorityQueue Nat Nat :=
  ⟨[⟨[(0, [7])], [0], [0]⟩, ⟨[(1, [9])], [1], [1]⟩]⟩

/-- One level with two entities of depth two each. -/
def sampleLevel2 : PriorityLevel Nat Nat :=
  ⟨[(0, [10, 11]), (1, [20, 21])], [0, 1], [0, 1]⟩

theorem claim_C1_priority_strictness_witness :
    Inv samplePQ2 ∧ (0 : Nat) < 1 ∧
    (7 : Nat) ∈ storedAtLevel samplePQ2 0 ∧
    (9 : Nat) ∈ storedAtLevel samplePQ2 1 ∧
    (∃ i j : Nat, ∃ ex ey : Nat, i < j ∧
      (drainSeqA samplePQ2)[i]? = some (0, ex, 7) ∧
      (drainSeqA samplePQ2)[j]? = some (1, ey, 9)) :=
  ⟨by decide, by decide, by decide, by decide,
    (claim_C1_priority_strictness samplePQ2 (by decide)).2 0 1 7 9
      (by decide) (by decide) (by decide)⟩

theorem claim_C2_round_robin_fairness_witness :
    LevelInv sampleLevel2 ∧ ({0, 1} : Finset Nat).Nonempty ∧
    (1 : Nat) ∈ ((servedSeq sampleLevel2 [LOp.deq, LOp.deq]).drop 0).take
      ({0, 1} : Finset Nat).card :=
  ⟨by decide, by decide,
    (claim_C2_round_robin_fairness sampleLevel2 (by decide) {0, 1} (by decide)
      [LOp.deq, LOp.deq] (by decide)).1 0 (by decide) 1 (by decide)⟩

theorem claim_C3_per_entity_fifo_witness :
    (0 : Nat) < 3 ∧
    outList 0 0 (PriorityQueue.new Nat Nat 3)
        [QOp.enq 0 0 5, QOp.enq 0 1 6, QOp.deq]
      = (enqList 0 0 [QOp.enq 0 0 5, QOp.enq 0 1 6, QOp.deq]).take
          (outList 0 0 (PriorityQueue.new Nat Nat 3)
            [QOp.enq 0 0 5, QOp.enq 0 1 6, QOp.deq]).length :=
  ⟨by decide,
    claim_C3_per_entity_fifo 3 [QOp.enq 0 0 5, QOp.enq 0 1 6, QOp.deq] 0 0
      (by decide)⟩

theorem claim_C4_level_invariants_witness :
    sampleLevel ∈ (runPQ (PriorityQueue.new Nat Nat 1) [QOp.enq 0 0 5]).queues ∧
    ((∀ e, e ∈ sampleLevel.actives ↔ e ∈ sampleLevel.rr) ∧
     (∀ e, e ∈ sampleLevel.actives ↔
       ∃ l, lookupE e sampleLevel.by_entities = some l ∧ l ≠ []) ∧
     (∀ kv ∈ sampleLevel.by_entities, kv.2 ≠ []) ∧
     sampleLevel.rr.Nodup) :=
  ⟨by decide,
    claim_C4_level_invariants 1 [QOp.enq 0 0 5] sampleLevel (by decide)⟩

theorem claim_C5_close_monotonic_witness :
    (⟨samplePQ, true⟩ : SyncState Nat Nat).closed = true ∧
    SyncSteps (⟨samplePQ, true⟩ : SyncState Nat Nat) ⟨samplePQ, true⟩ ∧
    (⟨samplePQ, true⟩ : SyncState Nat Nat).closed = true ∧
    syncEnqueue (⟨samplePQ, true⟩ : SyncState Nat Nat) 0 0 5
      = (Except.error PQError.Closed, ⟨samplePQ, true⟩) := by
  have h := (claim_C5_close_monotonic (⟨samplePQ, true⟩ : SyncState Nat Nat)
    ⟨samplePQ, true⟩).2.2 rfl Relation.ReflTransGen.refl
  exact ⟨rfl, Relation.ReflTransGen.refl, h.1, h.2 0 0 5⟩

theorem claim_C6_timeout_iff_witness :
    isEmpty (⟨samplePQ, false⟩ : SyncState Nat Nat).pq = false ∧
    SyncSteps (shutdownEnter (⟨samplePQ, false⟩ : SyncState Nat Nat))
      (shutdownEnter ⟨samplePQ, false⟩) ∧
    ((shutdownTimeoutFinish
        (shutdownEnter (⟨samplePQ, false⟩ : SyncState Nat Nat)) true).1
        = Except.error PQError.Timeout
      ↔ isEmpty (shutdownEnter (⟨samplePQ, false⟩ : SyncState Nat Nat)).pq
          = false) :=
  ⟨by decide, Relation.ReflTransGen.refl,
    (claim_C6_timeout_iff (⟨samplePQ, false⟩ : SyncState Nat Nat)
      (shutdownEnter ⟨samplePQ, false⟩) true (by decide)
      Relation.ReflTransGen.refl (fun h => Bool.noConfusion h)).1⟩

theorem claim_C7_shutdown_idempotent_amended_witness :
    Inv (⟨samplePQ, false⟩ : SyncState Nat Nat).pq ∧
    shutdownImmediate
        ((shutdownImmediate (⟨samplePQ, false⟩ : SyncState Nat Nat)).2)
      = (Except.ok (),
          (shutdownImmediate (⟨samplePQ, false⟩ : SyncState Nat Nat)).2) :=
  ⟨by decide,
    (claim_C7_shutdown_idempotent_amended (⟨samplePQ, false⟩ : SyncState Nat Nat)
      (by decide)).1⟩

theorem claim_C8_is_empty_witness :
    (isEmpty samplePQ = true ↔ ∀ lvl ∈ samplePQ.queues, lvl.rr = []) ∧
    (isEmpty samplePQ = true ↔ (tryDequeue samplePQ).1 = none) :=
  ⟨(claim_C8_is_empty samplePQ).1, (claim_C8_is_empty samplePQ).2 (by decide)⟩

theorem claim_C9_bad_priority_witness :
    samplePQ.queues.length ≤ 5 ∧
    enqueue samplePQ 5 0 0 = (Except.error (PQError.BadPriority 5), samplePQ) ∧
    (samplePQ.queues = [] → ∀ p' e' t', enqueue samplePQ p' e' t'
      = (Except.error (PQError.BadPriority p'), samplePQ)) := by
  have h := claim_C9_bad_priority samplePQ 5 0 0 (by decide)
  exact ⟨by decide, h.1, h.2⟩

theorem claim_C10_closed_precedence_witness :
    (⟨samplePQ, true⟩ : SyncState Nat Nat).closed = true ∧
    syncEnqueue (⟨samplePQ, true⟩ : SyncState Nat Nat) 9 0 0
      = (Except.error PQError.Closed, ⟨samplePQ, true⟩) ∧
    ((⟨samplePQ, true⟩ : SyncState Nat Nat).pq.queues.length ≤ 9 →
      (syncEnqueue (⟨samplePQ, true⟩ : SyncState Nat Nat) 9 0 0).1
        ≠ Except.error (PQError.BadPriority 9)) := by
  have h := claim_C10_closed_precedence (⟨samplePQ, true⟩ : SyncState Nat Nat)
    rfl 9 0 0
  exact ⟨rfl, h.1, h.2⟩

end PqAsync
